import Mathlib

/-!
Verification of the cmap transcoder (`src/cmap.rs`) of the `subsetter`
repository: a shallow embedding of the table parser (`Table::read`), the
serializer (`Table::write`), the format-4 → format-12 subtable converter
(`convert_subtable_4_to_12`), the PUA remapper (`map_glyph_to_pua_12`) and
the orchestrator (`map_glyphs`), together with proofs about them.

Byte buffers are `List Nat`, one entry per byte (a well-formed buffer has
every entry `< 256`); machine integers are `Nat` with explicit `% 2^w`
where Rust's fixed-width arithmetic can wrap.  Fallible operations return
`Except PErr`; a Rust `panic!` (out-of-range slice indexing, which the
source performs on untrusted data) is modelled as the distinguished error
`PErr.panic`, kept apart from the `Result::Err` values the source returns
through `?`.
-/

namespace Cmap

/-- A byte buffer: one `Nat` per byte. -/
abbrev Bytes := List Nat

/-- Modelled from the spec: the error kinds of §7 — `unknownKind` for an
unrecognized subtable format (`Error::UnknownKind`), `outOfBounds` for a
failed bounds-checked scalar read (`Error` returned by `read_at`),
`missingData` for `Error::MissingData` — plus `panic`, the outcome of a
Rust slice-indexing operation whose range falls outside the buffer (an
abort, not a returned error). -/
inductive PErr where
  | outOfBounds
  | unknownKind
  | missingData
  | panic
deriving DecidableEq, Repr

/-- Modelled from the spec: `u16::read_at(data, o)`, a bounds-checked
big-endian 16-bit read at absolute offset `o` (§4.1). -/
def readU16 (d : Bytes) (o : Nat) : Except PErr Nat :=
  match d[o]?, d[o+1]? with
  | some b0, some b1 => .ok (b0 * 256 + b1)
  | _, _ => .error .outOfBounds

/-- Modelled from the spec: `u32::read_at(data, o)`, a bounds-checked
big-endian 32-bit read at absolute offset `o` (§4.1). -/
def readU32 (d : Bytes) (o : Nat) : Except PErr Nat :=
  match d[o]?, d[o+1]?, d[o+2]?, d[o+3]? with
  | some b0, some b1, some b2, some b3 =>
      .ok (b0 * 2^24 + b1 * 2^16 + b2 * 2^8 + b3)
  | _, _, _, _ => .error .outOfBounds

/-- Big-endian bytes of `x` as a `u16` (`(x as u16).to_be_bytes()`). -/
def u16Bytes (x : Nat) : Bytes := [x / 256 % 256, x % 256]

/-- Big-endian bytes of `x` as a `u32` (`(x as u32).to_be_bytes()`). -/
def u32Bytes (x : Nat) : Bytes :=
  [x / 2^24 % 256, x / 2^16 % 256, x / 2^8 % 256, x % 256]

/-- Rust `&d[lo..hi]`: the slice when `lo ≤ hi ≤ d.length`, otherwise a
panic (slice indexing aborts instead of returning an error). -/
def sliceP (d : Bytes) (lo hi : Nat) : Except PErr Bytes :=
  if lo ≤ hi ∧ hi ≤ d.length then .ok ((d.drop lo).take (hi - lo))
  else .error .panic

/-- Rust `&d[lo..]`. -/
def sliceFrom (d : Bytes) (lo : Nat) : Except PErr Bytes :=
  if lo ≤ d.length then .ok (d.drop lo) else .error .panic

/-- Rust `&d[..hi]`. -/
def sliceTo (d : Bytes) (hi : Nat) : Except PErr Bytes :=
  if hi ≤ d.length then .ok (d.take hi) else .error .panic

/-- Modelled from the spec: `Writer::align(4)`, zero padding up to the next
multiple of 4 bytes (§4.1). -/
def pad4 (b : Bytes) : Bytes := b ++ List.replicate ((4 - b.length % 4) % 4) 0

/-- Modelled from the spec: the writer's retroactive patch of the 4-byte
range at `o` with the big-endian `u32` value `v` (§4.1); every call site
patches a range that was already written. -/
def patchU32 (b : Bytes) (o v : Nat) : Bytes :=
  b.take o ++ u32Bytes v ++ b.drop (o + 4)

/-- Rust `Iterator::position(p)`: index of the first element satisfying
`p`. -/
def position (p : α → Bool) : List α → Option Nat
  | [] => none
  | x :: l => if p x then some 0 else (position p l).map (· + 1)

/-- `struct EncodingRecord` of `cmap.rs`. -/
structure EncodingRecord where
  platform_id : Nat
  encoding_id : Nat
  subtable_idx : Nat
deriving DecidableEq, Repr, Inhabited

/-- `struct Subtable` of `cmap.rs`.  `src` models the provenance of a
`Cow::Borrowed` payload: `some (offset, length)` for a slice
`&data[offset..offset+length]` of the parse buffer, `none` for
`Cow::Owned`.  `ptr::eq` on two such slices of one buffer is exactly
equality of their `(offset, length)` pairs, which is how the parser's
deduplication test is embedded. -/
structure Subtable where
  format : Nat
  language : Nat
  src : Option (Nat × Nat)
  data : Bytes
deriving DecidableEq, Repr, Inhabited

/-- `struct Table` of `cmap.rs`. -/
structure Table where
  version : Nat
  encoding_records : List EncodingRecord
  subtables : List Subtable
deriving DecidableEq, Repr, Inhabited

/-- The `(length, language)` computation of `Table::read` (cmap.rs lines
34–46): read the subtable `format` at `offset` and dispatch on it; an
unrecognized format is `Error::UnknownKind`.  Returns
`(format, length, language)`. -/
def readSubtableHeader (data : Bytes) (offset : Nat) :
    Except PErr (Nat × Nat × Nat) := do
  let format ← readU16 data offset
  if format = 0 ∨ format = 2 ∨ format = 4 ∨ format = 6 then do
    let length ← readU16 data (offset + 2)
    let language ← readU16 data (offset + 4)
    pure (format, length, language)
  else if format = 8 ∨ format = 10 ∨ format = 12 ∨ format = 13 then do
    let length ← readU32 data (offset + 4)
    let language ← readU32 data (offset + 8)
    pure (format, length, language)
  else if format = 14 then do
    let length ← readU32 data (offset + 2)
    pure (format, length, 0)
  else .error .unknownKind

/-- The directory loop of `Table::read` (cmap.rs lines 30–61): `n` entries
remain, the reader's cursor is at `pos`, and `recs`/`sts` are the
accumulated `encoding_records`/`subtables`.  Each entry reads
`platform_id`, `encoding_id` and `offset` sequentially, reads the
subtable header at `offset`, slices the payload (a panic when the range
leaves the buffer, as in the source) and resolves it against the already
collected subtables by `(offset, length)` identity. -/
def readRecordsLoop (data : Bytes) :
    Nat → Nat → List EncodingRecord → List Subtable →
    Except PErr (List EncodingRecord × List Subtable)
  | 0, _pos, recs, sts => .ok (recs, sts)
  | n + 1, pos, recs, sts => do
    let platform_id ← readU16 data pos
    let encoding_id ← readU16 data (pos + 2)
    let offset ← readU32 data (pos + 4)
    let (format, length, language) ← readSubtableHeader data offset
    let subtable_data ← sliceP data offset (offset + length)
    match position (fun st => st.src == some (offset, length)) sts with
    | some idx =>
        readRecordsLoop data n (pos + 8)
          (recs ++ [⟨platform_id, encoding_id, idx⟩]) sts
    | none =>
        readRecordsLoop data n (pos + 8)
          (recs ++ [⟨platform_id, encoding_id, sts.length⟩])
          (sts ++ [⟨format, language, some (offset, length), subtable_data⟩])

/-- `Table::read` (cmap.rs lines 24–63). -/
def cmapRead (data : Bytes) : Except PErr Table := do
  let version ← readU16 data 0
  let num_tables ← readU16 data 2
  let (encoding_records, subtables) ← readRecordsLoop data num_tables 4 [] []
  .ok ⟨version, encoding_records, subtables⟩

/-- Lexicographic order on the Rust tuple `(u16, u16, u32)` used as the
sort key of `Table::write`. -/
def keyLe (a b : Nat × Nat × Nat) : Bool :=
  decide (a.1 < b.1 ∨ (a.1 = b.1 ∧
    (a.2.1 < b.2.1 ∨ (a.2.1 = b.2.1 ∧ a.2.2 ≤ b.2.2))))

/-- The sort key of `Table::write` (cmap.rs lines 74–77):
`(platform_id, encoding_id, subtables[subtable_idx].language)`.  Rust
indexing panics on an invalid index; the table invariant (§3) rules that
out, so an out-of-range index defaults here. -/
def recKey (t : Table) (r : EncodingRecord) : Nat × Nat × Nat :=
  (r.platform_id, r.encoding_id, (t.subtables.getD r.subtable_idx default).language)

/-- The encoding records in the order `Table::write` emits them: a stable
sort by `recKey` (Rust sorts the index list with `sort_by_key`, which is
stable, and then writes `encoding_records[i]` for each sorted index
`i`). -/
def sortedRecords (t : Table) : List EncodingRecord :=
  t.encoding_records.mergeSort (fun a b => keyLe (recKey t a) (recKey t b))

/-- The running-offset accumulation of `Table::write` (cmap.rs lines
82–85): each subtable's offset is the running total, advanced by its
payload length. -/
def subtableOffsetsFrom (base : Nat) : List Subtable → List Nat
  | [] => []
  | st :: rest => base :: subtableOffsetsFrom (base + st.data.length) rest

/-- The per-subtable output offsets of `Table::write` (cmap.rs lines
80–85): the header is `4 + 8 * encoding_records.len()` bytes and the
payloads follow in first-seen order. -/
def subtableOffsets (t : Table) : List Nat :=
  subtableOffsetsFrom (4 + 8 * t.encoding_records.length) t.subtables

/-- `Table::write` (cmap.rs lines 65–96).  Note the source writes
`self.subtables.len()` — the number of distinct subtables — into the
directory's count field while emitting `self.encoding_records.len()`
directory entries.  The `assert_eq!` before each payload always holds
(the offsets are by construction the writer's running length), so it is
not modelled as a failure path. -/
def cmapWrite (t : Table) : Bytes :=
  u16Bytes t.version
    ++ u16Bytes t.subtables.length
    ++ (sortedRecords t).flatMap (fun r =>
          u16Bytes r.platform_id ++ u16Bytes r.encoding_id
            ++ u32Bytes ((subtableOffsets t).getD r.subtable_idx 0))
    ++ t.subtables.flatMap (fun st => st.data)

/-- A format-12 group, the Rust tuple
`(start_code, end_code, start_glyph_id)` of `u32`s. -/
abbrev Group := Nat × Nat × Nat

/-- The 12 bytes of one group entry, as the writer emits them. -/
def groupBytes (g : Group) : Bytes :=
  u32Bytes g.1 ++ u32Bytes g.2.1 ++ u32Bytes g.2.2

/-- The group-reading loop of `map_glyph_to_pua_12` (cmap.rs lines
209–215): read `start_code`, `end_code`, `start_glyph_id` at offsets 0, 4,
8 of the current slice, then advance the slice by 12 bytes (`&cur_group[12..]`
cannot panic once the three reads succeeded). -/
def readGroups : Bytes → Nat → Except PErr (List Group)
  | _, 0 => .ok []
  | d, n + 1 => do
    let start_code ← readU32 d 0
    let end_code ← readU32 d 4
    let start_glyph_id ← readU32 d 8
    let rest ← readGroups (d.drop 12) n
    .ok ((start_code, end_code, start_glyph_id) :: rest)

/-- The group-parsing phase of `map_glyph_to_pua_12` (cmap.rs lines
206–215): `n_groups` is the `u32` at offset 12, the group array starts at
offset 16 (`&st.data[16..]` panics when the buffer is shorter, but the
preceding read already failed in that case). -/
def parseGroups12 (data : Bytes) : Except PErr (List Group) := do
  let n_groups ← readU32 data 12
  let cur_group ← sliceFrom data 16
  readGroups cur_group n_groups

/-- Rust `u32` wrapping addition. -/
def wadd (a b : Nat) : Nat := (a + b) % 2^32

/-- Rust `u32` wrapping subtraction (for `a b < 2^32`). -/
def wsub (a b : Nat) : Nat := (a + 2^32 - b % 2^32) % 2^32

/-- The PUA window start `0xF0000` (`glyph_start_code`, cmap.rs line
216). -/
def glyphStartCode : Nat := 0xF0000

/-- The PUA window end `glyph_start_code + num_glyphs as u32 - 1`
(cmap.rs line 217).  `num_glyphs` is a `u16`, so in `u32` arithmetic this
is `0xF0000 + num_glyphs - 1`, which for `num_glyphs = 0` is `0xEFFFF`;
`Nat` subtraction agrees because `0xF0000 + num_glyphs ≥ 1`. -/
def glyphEndCode (num_glyphs : Nat) : Nat := glyphStartCode + num_glyphs - 1

/-- Models `slice::partition_point(p)`: the number of leading elements
satisfying `p`.  Rust's binary search returns exactly this index under its
documented precondition that the slice is partitioned (`p` holds on a
prefix and fails on the rest); every call site here passes a sorted group
list, for which the two predicates used are monotone. -/
def partitionPoint (p : α → Bool) (l : List α) : Nat := (l.takeWhile p).length

/-- The splice step of `map_glyph_to_pua_12` (cmap.rs lines 216–253):
binary-search the window boundaries and either insert the identity window
group or replace the intersecting groups `[i_start, i_end)` with up to
three groups (left remainder, window, right remainder).  Group indexing
(`groups[i_start]`, `groups[i_end - 1]`) is in bounds in the `else`
branch, so the default is never read. -/
def spliceGroups (groups : List Group) (num_glyphs : Nat) : List Group :=
  let glyph_start_code := glyphStartCode
  let glyph_end_code := glyphEndCode num_glyphs
  let i_start := partitionPoint (fun g => decide (g.2.1 < glyph_start_code)) groups
  let i_end := partitionPoint (fun g => decide (g.1 ≤ glyph_end_code)) groups
  if i_start = i_end then
    groups.take i_start ++ [(glyph_start_code, glyph_end_code, 0)]
      ++ groups.drop i_start
  else
    let g0 := groups.getD i_start default
    let g1 := groups.getD (i_end - 1) default
    let replace_with :=
      (if g0.1 < glyph_start_code then [(g0.1, glyph_start_code - 1, g0.2.2)] else [])
        ++ [(glyph_start_code, glyph_end_code, 0)]
        ++ (if glyph_end_code < g1.2.1 then
              [(glyph_end_code + 1, g1.2.1, wsub (wadd (wadd g1.2.2 glyph_end_code) 1) g1.1)]
            else [])
    groups.take i_start ++ replace_with ++ groups.drop i_end

/-- `map_glyph_to_pua_12` (cmap.rs lines 204–268) on the subtable's byte
payload: parse the groups, splice in the PUA window, then rebuild the
payload — the original 12-byte header, the new group count, the group
list, alignment padding, and the `length` field patched at offset 4. -/
def mapGlyphToPua12 (data : Bytes) (num_glyphs : Nat) : Except PErr Bytes := do
  let groups ← parseGroups12 data
  let groups := spliceGroups groups num_glyphs
  let header ← sliceTo data 12
  let body := pad4 (header ++ u32Bytes groups.length ++ groups.flatMap groupBytes)
  .ok (patchU32 body 4 body.length)

/-- The array-locating phase of `convert_subtable_4_to_12` (cmap.rs lines
102–135): read `seg_count_x2` at offset 6, read (and, outside debug
builds, ignore) the stored `search_range`/`entry_selector`/`range_shift`,
then slice the four parallel arrays and the glyph-index array — Rust
range indexing, a panic when a range leaves the buffer.  `base` ends at
`16 + 3 * seg_count_x2`, the position of `id_range_offset[0]`. -/
def convert4Arrays (data : Bytes) :
    Except PErr (Nat × Bytes × Bytes × Bytes × Bytes) := do
  let seg_count_x2 ← readU16 data 6
  let _search_range ← readU16 data 8
  let _entry_selector ← readU16 data 10
  let _range_shift ← readU16 data 12
  let end_code ← sliceP data 14 (14 + seg_count_x2)
  let _reserved_pad ← readU16 data (14 + seg_count_x2)
  let start_code ← sliceP data (16 + seg_count_x2) (16 + 2 * seg_count_x2)
  let id_delta ← sliceP data (16 + 2 * seg_count_x2) (16 + 3 * seg_count_x2)
  let id_range_offset ← sliceP data (16 + 3 * seg_count_x2) (16 + 4 * seg_count_x2)
  let _glyph_index_array ← sliceFrom data (16 + 4 * seg_count_x2)
  .ok (seg_count_x2, end_code, start_code, id_delta, id_range_offset)

/-- The inner loop of an `id_range_offset ≠ 0` segment (cmap.rs lines
163–186): walk the codepoints, read each glyph id from the glyph-index
array at `pos0 + (c - s) * 2` (where `pos0 = base + i*2 + id_range_offset`),
and maintain the pending run, flushing it whenever the mapping stops being
affine with slope 1.  `s` is the segment's `start_code`. -/
def indirectSeg (data : Bytes) (pos0 s : Nat) :
    List Nat → Option Group → Except PErr (List Group)
  | [], none => .ok []
  | [], some pending => .ok [pending]
  | c :: cs, pending => do
    let glyph_id ← readU16 data (pos0 + (c - s) * 2)
    match pending with
    | none => indirectSeg data pos0 s cs (some (c, c, glyph_id))
    | some (rs, re, rg) =>
        if c + rg = rs + glyph_id then
          indirectSeg data pos0 s cs (some (rs, c, rg))
        else do
          let more ← indirectSeg data pos0 s cs (some (c, c, glyph_id))
          .ok ((rs, re, rg) :: more)

/-- The segment loop of `convert_subtable_4_to_12` (cmap.rs lines
151–188), emitting the groups of segments `i, i+1, …` while `fuel` many
remain (`fuel` starts at `seg_count`).  `iroBase = 16 + 3 * seg_count_x2`
is the absolute position of `id_range_offset[0]` in `data`. -/
def segLoop (data : Bytes) (iroBase : Nat)
    (end_code start_code id_delta id_range_offset : Bytes) :
    Nat → Nat → Except PErr (List Group)
  | _i, 0 => .ok []
  | i, fuel + 1 => do
    let s ← readU16 start_code (i * 2)
    let e ← readU16 end_code (i * 2)
    let iro ← readU16 id_range_offset (i * 2)
    let gs ←
      if iro = 0 then do
        let delta ← readU16 id_delta (i * 2)
        pure [((s : Nat), (e : Nat), (delta + s) % 2^16)]
      else
        indirectSeg data (iroBase + i * 2 + iro) s (List.range' s (e + 1 - s)) none
    let rest ← segLoop data iroBase end_code start_code id_delta id_range_offset (i + 1) fuel
    .ok (gs ++ rest)

/-- The full group list `convert_subtable_4_to_12` emits for a format-4
payload. -/
def convert4Groups (data : Bytes) : Except PErr (List Group) := do
  let (seg_count_x2, end_code, start_code, id_delta, id_range_offset) ←
    convert4Arrays data
  segLoop data (16 + 3 * seg_count_x2) end_code start_code id_delta id_range_offset
    0 (seg_count_x2 / 2)

/-- `convert_subtable_4_to_12` (cmap.rs lines 101–200): compute the groups,
then build the owned format-12 payload — the 16-byte header with `length`
and `nGroups` placeholders, the groups, alignment padding, and the two
patched fields.  The debug-build `assert_eq!` cross-checks of the stored
`search_range`/`entry_selector`/`range_shift` fields are debug-only and
not modelled (release semantics). -/
def convert_subtable_4_to_12 (st : Subtable) : Except PErr Subtable := do
  let groups ← convert4Groups st.data
  let body := pad4 (u16Bytes 12 ++ u16Bytes 0 ++ u32Bytes 0 ++ u32Bytes st.language
    ++ u32Bytes 0 ++ groups.flatMap groupBytes)
  let body := patchU32 body 4 body.length
  let body := patchU32 body 12 groups.length
  .ok ⟨12, st.language, none, body⟩

/-- The record-append step of `map_glyphs` (cmap.rs lines 292–302): append
a `(platform_id = 0, encoding_id = 4)` record referencing `tab_12_id`
unless some record with platform 0 and encoding 4 already exists —
whichever subtable that existing record references. -/
def mapGlyphsRecords (recs : List EncodingRecord) (tab_12_id : Nat) :
    List EncodingRecord :=
  if recs.any (fun r => r.platform_id == 0 && r.encoding_id == 4) then recs
  else recs ++ [⟨0, 4, tab_12_id⟩]

/-- The subtable-choice step of `map_glyphs` (cmap.rs lines 277–290): the
first format-12 subtable, or else the first format-4 subtable converted
and appended; `Error::MissingData` when neither exists. -/
def chooseTab12 (t : Table) : Except PErr (Table × Nat) :=
  match position (fun st => st.format == 12) t.subtables with
  | some id => .ok (t, id)
  | none =>
    match position (fun st => st.format == 4) t.subtables with
    | none => .error .missingData
    | some tab_4_id => do
        let st12 ← convert_subtable_4_to_12 (t.subtables.getD tab_4_id default)
        .ok ({ t with subtables := t.subtables ++ [st12] }, t.subtables.length)

/-- The table transformation of `map_glyphs` (cmap.rs lines 276–304):
choose (or synthesize) the format-12 subtable, append the Unicode
full-repertoire record when none exists, then remap the chosen subtable's
payload (replacing it wholesale with an owned buffer, so its borrow
provenance is gone). -/
def mapGlyphsTableStep (t : Table) (num_glyphs : Nat) : Except PErr Table := do
  let (t, tab_12_id) ← chooseTab12 t
  let t := { t with encoding_records := mapGlyphsRecords t.encoding_records tab_12_id }
  let st := t.subtables.getD tab_12_id default
  let newData ← mapGlyphToPua12 st.data num_glyphs
  .ok { t with
    subtables := t.subtables.set tab_12_id { st with src := none, data := newData } }

/-- `map_glyphs` (cmap.rs lines 270–310) with the `Context` plumbing made
explicit: the cmap table's bytes, the profile's `map_glyphs` flag, and the
subsetted glyph count; returns the replacement table bytes.  With the flag
off the input passes through untouched, without being parsed. -/
def map_glyphs (data : Bytes) (map_glyphs_enabled : Bool) (num_glyphs : Nat) :
    Except PErr Bytes :=
  if !map_glyphs_enabled then .ok data
  else do
    let t ← cmapRead data
    let t ← mapGlyphsTableStep t num_glyphs
    .ok (cmapWrite t)

/-- Modelled from the spec: evaluating a format-12 group list at a
codepoint (§3: every codepoint `c` in `[start_code, end_code]` maps to
glyph `start_glyph_id + (c - start_code)`, `u32` arithmetic); the first
containing group decides. -/
def evalGroups (groups : List Group) (c : Nat) : Option Nat :=
  groups.findSome? fun g =>
    if g.1 ≤ c ∧ c ≤ g.2.1 then some ((g.2.2 + (c - g.1)) % 2^32) else none

/-- The segment-bounds reading loop for the format-4 reference semantics:
`(start_code[i], end_code[i])` for segments `i, i+1, …` while `fuel`
remain, read at the array positions of §4.4 (`end_code[i]` at
`14 + 2i`, `start_code[i]` at `16 + seg_count_x2 + 2i`). -/
def readSegBounds (data : Bytes) (seg_count_x2 : Nat) :
    Nat → Nat → Except PErr (List (Nat × Nat))
  | _i, 0 => .ok []
  | i, fuel + 1 => do
    let e ← readU16 data (14 + 2 * i)
    let s ← readU16 data (16 + seg_count_x2 + 2 * i)
    let rest ← readSegBounds data seg_count_x2 (i + 1) fuel
    .ok ((s, e) :: rest)

/-- Modelled from the spec: the `(start_code, end_code)` ranges of a
format-4 subtable's segments (§4.4). -/
def format4SegBounds (data : Bytes) : Except PErr (List (Nat × Nat)) := do
  let seg_count_x2 ← readU16 data 6
  readSegBounds data seg_count_x2 0 (seg_count_x2 / 2)

/-- Modelled from the spec: evaluating segment `i` of a format-4 subtable
at codepoint `c` (§4.4): with `id_range_offset[i] = 0` the glyph is
`(c + id_delta[i]) mod 65536`; otherwise it is the glyph-index array entry
at the position `id_range_offset[i]` indicates relative to its own slot
`16 + 3*seg_count_x2 + 2i`. -/
def format4SegEval (data : Bytes) (seg_count_x2 i c : Nat) : Except PErr Nat := do
  let s ← readU16 data (16 + seg_count_x2 + 2 * i)
  let delta ← readU16 data (16 + 2 * seg_count_x2 + 2 * i)
  let iro ← readU16 data (16 + 3 * seg_count_x2 + 2 * i)
  if iro = 0 then pure ((c + delta) % 2^16)
  else readU16 data (16 + 3 * seg_count_x2 + 2 * i + iro + (c - s) * 2)

/-- Modelled from the spec: the glyph a format-4 subtable assigns to
codepoint `c` — `some` when a segment covers `c` (the first such segment
decides; for a well-formed subtable there is at most one), `none` when no
segment does. -/
def format4GlyphAt (data : Bytes) (c : Nat) : Except PErr (Option Nat) := do
  let seg_count_x2 ← readU16 data 6
  let bounds ← readSegBounds data seg_count_x2 0 (seg_count_x2 / 2)
  match position (fun p => p.1 ≤ c && c ≤ p.2) bounds with
  | none => pure none
  | some i => do
      let g ← format4SegEval data seg_count_x2 i c
      pure (some g)

/-- Well-formedness of a format-4 subtable as the spec assumes it (§4.4,
§8): its segment ranges parse, each has `start_code ≤ end_code`, and they
are sorted with pairwise-disjoint ranges. -/
def Format4WellFormed (data : Bytes) : Prop :=
  ∃ bounds, format4SegBounds data = .ok bounds ∧
    (∀ p ∈ bounds, p.1 ≤ p.2) ∧ bounds.Chain' (fun a b => a.2 < b.1)

/-- Segment `j` of a format-4 subtable contains codepoint `c`: its
`start_code`/`end_code` reads succeed and bracket `c`. -/
def SegContains (data : Bytes) (seg_count_x2 j c : Nat) : Prop :=
  ∃ s e, readU16 data (16 + seg_count_x2 + 2 * j) = .ok s ∧
    readU16 data (14 + 2 * j) = .ok e ∧ s ≤ c ∧ c ≤ e

/-- Every group is a well-formed range: `start_code ≤ end_code`. -/
def GroupsWF (groups : List Group) : Prop := ∀ g ∈ groups, g.1 ≤ g.2.1

/-- The §3 invariant on a group list: sorted ascending and pairwise
non-overlapping, i.e. each group ends strictly before the next begins. -/
def GroupsSorted (groups : List Group) : Prop :=
  groups.Chain' (fun a b => a.2.1 < b.1)

/-- Every byte of the buffer is an actual byte. -/
def BytesOk (d : Bytes) : Prop := ∀ b ∈ d, b < 256

/-- The byte range `(offset, length)` the `i`-th directory entry of a cmap
buffer resolves to: the entry's `offset` field at `4 + 8i + 4`, and the
length the format dispatch of `Table::read` computes at that offset. -/
def entryOffLen (data : Bytes) (i : Nat) : Except PErr (Nat × Nat) := do
  let offset ← readU32 data (4 + 8 * i + 4)
  let (_format, length, _language) ← readSubtableHeader data offset
  .ok (offset, length)

/-- Decoding `n` directory entries `(platform_id, encoding_id, offset)`
from position `pos` of a cmap buffer, as the directory-walking part of
`Table::read` does. -/
def readDirEntries (data : Bytes) : Nat → Nat → Except PErr (List (Nat × Nat × Nat))
  | 0, _pos => .ok []
  | n + 1, pos => do
    let platform_id ← readU16 data pos
    let encoding_id ← readU16 data (pos + 2)
    let offset ← readU32 data (pos + 4)
    let rest ← readDirEntries data n (pos + 8)
    .ok ((platform_id, encoding_id, offset) :: rest)

/-- The observation the round-trip property compares: one
`(platform_id, encoding_id, subtable format, subtable language, subtable
byte length)` tuple per encoding record. -/
def recordTuples (t : Table) : List (Nat × Nat × Nat × Nat × Nat) :=
  t.encoding_records.map fun r =>
    let st := t.subtables.getD r.subtable_idx default
    (r.platform_id, r.encoding_id, st.format, st.language, st.data.length)

/-- The record tuples of a parsed buffer. -/
def origTuples (d : Bytes) : Except PErr (List (Nat × Nat × Nat × Nat × Nat)) :=
  (cmapRead d).map recordTuples

/-- The record tuples after one parse → write → reparse round trip. -/
def roundTripTuples (d : Bytes) : Except PErr (List (Nat × Nat × Nat × Nat × Nat)) := do
  let t ← cmapRead d
  let t2 ← cmapRead (cmapWrite t)
  .ok (recordTuples t2)

/-- A cmap buffer with two directory entries resolving to the same byte
range `(20, 6)`: records `(0, 3)` and `(3, 1)`, one shared format-0
subtable of 6 bytes at offset 20. -/
def bufDedup : Bytes :=
  [0, 0, 0, 2,
   0, 0, 0, 3, 0, 0, 0, 20,
   0, 3, 0, 1, 0, 0, 0, 20,
   0, 0, 0, 6, 0, 0]

/-- A cmap buffer whose one directory entry's range leaves the buffer: the
format-0 subtable at offset 12 declares length 100 but the buffer ends at
byte 18, so `&data[12..112]` is out of range. -/
def bufRangeOut : Bytes :=
  [0, 0, 0, 1,
   0, 0, 0, 0, 0, 0, 0, 12,
   0, 0, 0, 100, 0, 0]

/-- A format-4 subtable whose parallel arrays leave the payload:
`seg_count_x2 = 200` but the payload ends at byte 14, so
`&data[14..214]` is out of range. -/
def stArraysOut : Subtable :=
  ⟨4, 0, none, [0, 4, 0, 16, 0, 0, 0, 200, 0, 0, 0, 0, 0, 0]⟩

/-- A format-4 subtable with a constant-delta segment whose 16-bit glyph
arithmetic wraps mid-segment: segment `[0x10, 0x20]` with
`id_delta = 0xFFE7` (so codepoint `0x19` maps to glyph
`(0x19 + 0xFFE7) mod 65536 = 0`), plus the conventional final
`0xFFFF` segment. -/
def stWrap4 : Subtable :=
  ⟨4, 0, none,
   [0, 4, 0, 32, 0, 0, 0, 4, 0, 4, 0, 1, 0, 0,
    0x00, 0x20, 0xFF, 0xFF,
    0, 0,
    0x00, 0x10, 0xFF, 0xFF,
    0xFF, 0xE7, 0x00, 0x01,
    0, 0, 0, 0]⟩

/-- A well-formed format-4 subtable with one constant-delta segment
`[0x41, 0x5A]`, `id_delta = 0` (identity mapping, no wrap). -/
def stPlain4 : Subtable :=
  ⟨4, 0, none,
   [0, 4, 0, 24, 0, 0, 0, 2, 0, 2, 0, 0, 0, 0,
    0x00, 0x5A,
    0, 0,
    0x00, 0x41,
    0, 0,
    0, 0]⟩

/-- A format-12 subtable payload with an empty group list. -/
def data12Empty : Bytes :=
  [0, 12, 0, 0, 0, 0, 0, 16, 0, 0, 0, 0, 0, 0, 0, 0]

/-- A table whose `(0, 4)` encoding record references the format-4
subtable at index 0 while the format-12 subtable sits at index 1. -/
def tblUnicodeElsewhere : Table :=
  ⟨0, [⟨0, 4, 0⟩], [⟨4, 0, none, []⟩, ⟨12, 0, none, data12Empty⟩]⟩

/-- A table whose two records are out of `(platform, encoding, language)`
order as stored. -/
def tblUnsorted : Table :=
  ⟨0, [⟨3, 1, 0⟩, ⟨0, 3, 0⟩], [⟨0, 0, some (0, 6), [0, 0, 0, 6, 0, 0]⟩]⟩

/-! ### Basic lemmas about the byte primitives -/

@[simp]
theorem exceptBind_ok {ε α β : Type} (v : α) (f : α → Except ε β) :
    (Except.ok v >>= f : Except ε β) = f v := rfl

@[simp]
theorem exceptBind_error {ε α β : Type} (e : ε) (f : α → Except ε β) :
    (Except.error e >>= f : Except ε β) = Except.error e := rfl

theorem mem_of_getElem? {l : List α} {n : Nat} {x : α} (h : l[n]? = some x) :
    x ∈ l := by
  obtain ⟨hn, rfl⟩ := List.getElem?_eq_some_iff.mp h
  exact List.getElem_mem hn

@[simp] theorem length_u16Bytes (x : Nat) : (u16Bytes x).length = 2 := rfl

@[simp] theorem length_u32Bytes (x : Nat) : (u32Bytes x).length = 4 := rfl

@[simp] theorem length_groupBytes (g : Group) : (groupBytes g).length = 12 := rfl

theorem readU16_append_right {a : Bytes} (b : Bytes) {o : Nat}
    (h : a.length ≤ o) : readU16 (a ++ b) o = readU16 b (o - a.length) := by
  unfold readU16
  rw [List.getElem?_append_right h, List.getElem?_append_right (by omega)]
  have h1 : o + 1 - a.length = o - a.length + 1 := by omega
  rw [h1]

theorem readU32_append_right {a : Bytes} (b : Bytes) {o : Nat}
    (h : a.length ≤ o) : readU32 (a ++ b) o = readU32 b (o - a.length) := by
  unfold readU32
  rw [List.getElem?_append_right h, List.getElem?_append_right (by omega),
    List.getElem?_append_right (by omega), List.getElem?_append_right (by omega)]
  have h1 : o + 1 - a.length = o - a.length + 1 := by omega
  have h2 : o + 2 - a.length = o - a.length + 2 := by omega
  have h3 : o + 3 - a.length = o - a.length + 3 := by omega
  rw [h1, h2, h3]

theorem readU16_append_left {a : Bytes} (b : Bytes) {o : Nat}
    (h : o + 2 ≤ a.length) : readU16 (a ++ b) o = readU16 a o := by
  unfold readU16
  rw [List.getElem?_append_left (by omega), List.getElem?_append_left (by omega)]

theorem readU32_append_left {a : Bytes} (b : Bytes) {o : Nat}
    (h : o + 4 ≤ a.length) : readU32 (a ++ b) o = readU32 a o := by
  unfold readU32
  rw [List.getElem?_append_left (by omega), List.getElem?_append_left (by omega),
    List.getElem?_append_left (by omega), List.getElem?_append_left (by omega)]

theorem readU16_u16Bytes (x : Nat) (r : Bytes) :
    readU16 (u16Bytes x ++ r) 0 = .ok (x % 2^16) := by
  show readU16 (x / 256 % 256 :: x % 256 :: r) 0 = _
  unfold readU16
  simp only [List.getElem?_cons_zero, List.getElem?_cons_succ]
  congr 1
  omega

theorem readU32_u32Bytes (x : Nat) (r : Bytes) :
    readU32 (u32Bytes x ++ r) 0 = .ok (x % 2^32) := by
  show readU32 (x / 2^24 % 256 :: x / 2^16 % 256 :: x / 2^8 % 256 :: x % 256 :: r) 0 = _
  unfold readU32
  simp only [List.getElem?_cons_zero, List.getElem?_cons_succ]
  congr 1
  omega

theorem drop_append_right {a : Bytes} (b : Bytes) {o : Nat} (h : a.length ≤ o) :
    (a ++ b).drop o = b.drop (o - a.length) := by
  rw [List.drop_append_eq_append_drop, List.drop_eq_nil_of_le h, List.nil_append]

theorem readU16_lt {d : Bytes} {o v : Nat} (hB : BytesOk d)
    (h : readU16 d o = .ok v) : v < 2^16 := by
  unfold readU16 at h
  cases h0 : d[o]? with
  | none => rw [h0] at h; exact absurd h (by simp)
  | some b0 =>
    cases h1 : d[o+1]? with
    | none => rw [h0, h1] at h; exact absurd h (by simp)
    | some b1 =>
      rw [h0, h1] at h
      cases h
      have hb0 := hB _ (mem_of_getElem? h0)
      have hb1 := hB _ (mem_of_getElem? h1)
      omega

theorem readU32_lt {d : Bytes} {o v : Nat} (hB : BytesOk d)
    (h : readU32 d o = .ok v) : v < 2^32 := by
  unfold readU32 at h
  cases h0 : d[o]? with
  | none => rw [h0] at h; exact absurd h (by simp)
  | some b0 =>
    cases h1 : d[o+1]? with
    | none => rw [h0, h1] at h; exact absurd h (by simp)
    | some b1 =>
      cases h2 : d[o+2]? with
      | none => rw [h0, h1, h2] at h; exact absurd h (by simp)
      | some b2 =>
        cases h3 : d[o+3]? with
        | none => rw [h0, h1, h2, h3] at h; exact absurd h (by simp)
        | some b3 =>
          rw [h0, h1, h2, h3] at h
          cases h
          have hb0 := hB _ (mem_of_getElem? h0)
          have hb1 := hB _ (mem_of_getElem? h1)
          have hb2 := hB _ (mem_of_getElem? h2)
          have hb3 := hB _ (mem_of_getElem? h3)
          omega

theorem readU16_ok_le {d : Bytes} {o v : Nat} (h : readU16 d o = .ok v) :
    o + 2 ≤ d.length := by
  unfold readU16 at h
  cases h0 : d[o]? with
  | none => rw [h0] at h; exact absurd h (by simp)
  | some b0 =>
    cases h1 : d[o+1]? with
    | none => rw [h0, h1] at h; exact absurd h (by simp)
    | some b1 =>
      obtain ⟨hlt, -⟩ := List.getElem?_eq_some_iff.mp h1
      omega

theorem readU32_ok_le {d : Bytes} {o v : Nat} (h : readU32 d o = .ok v) :
    o + 4 ≤ d.length := by
  unfold readU32 at h
  cases h0 : d[o]? with
  | none => rw [h0] at h; exact absurd h (by simp)
  | some b0 =>
    cases h1 : d[o+1]? with
    | none => rw [h0, h1] at h; exact absurd h (by simp)
    | some b1 =>
      cases h2 : d[o+2]? with
      | none => rw [h0, h1, h2] at h; exact absurd h (by simp)
      | some b2 =>
        cases h3 : d[o+3]? with
        | none => rw [h0, h1, h2, h3] at h; exact absurd h (by simp)
        | some b3 =>
          obtain ⟨hlt, -⟩ := List.getElem?_eq_some_iff.mp h3
          omega

theorem BytesOk_drop {d : Bytes} (n : Nat) (h : BytesOk d) : BytesOk (d.drop n) :=
  fun b hb => h b (List.mem_of_mem_drop hb)

theorem BytesOk_take {d : Bytes} (n : Nat) (h : BytesOk d) : BytesOk (d.take n) :=
  fun b hb => h b (List.mem_of_mem_take hb)

theorem pad4_eq_self {b : Bytes} (h : b.length % 4 = 0) : pad4 b = b := by
  simp [pad4, h]

/-! ### Lemmas about `position` -/

theorem position_eq_some {p : α → Bool} :
    ∀ {l : List α} {i : Nat}, position p l = some i →
      ∃ x, l[i]? = some x ∧ p x = true
  | [], i, h => by simp [position] at h
  | x :: l, i, h => by
    by_cases hp : p x
    · simp [position, hp] at h
      subst h
      exact ⟨x, by simp, hp⟩
    · simp [position, hp] at h
      obtain ⟨j, hj, rfl⟩ := h
      obtain ⟨y, hy, hpy⟩ := position_eq_some hj
      exact ⟨y, by simpa using hy, hpy⟩

theorem position_eq_none {p : α → Bool} :
    ∀ {l : List α}, position p l = none → ∀ x ∈ l, p x = false
  | [], _, x, hx => by simp at hx
  | y :: l, h, x, hx => by
    by_cases hp : p y
    · simp [position, hp] at h
    · rcases List.mem_cons.mp hx with rfl | hx'
      · simpa using hp
      · simp [position, hp] at h
        exact position_eq_none h x hx'

/-! ### Lemmas about `readGroups` -/

theorem readGroups_length : ∀ {d : Bytes} {n : Nat} {gs : List Group},
    readGroups d n = .ok gs → gs.length = n
  | _, 0, gs, h => by
    simp only [readGroups] at h
    cases h
    rfl
  | d, n + 1, gs, h => by
    unfold readGroups at h
    cases h0 : readU32 d 0 with
    | error e => rw [h0] at h; exact absurd h (by simp)
    | ok s =>
      cases h4 : readU32 d 4 with
      | error e => rw [h0, h4] at h; exact absurd h (by simp)
      | ok e =>
        cases h8 : readU32 d 8 with
        | error e => rw [h0, h4, h8] at h; exact absurd h (by simp)
        | ok g =>
          cases hr : readGroups (d.drop 12) n with
          | error e => rw [h0, h4, h8, hr] at h; exact absurd h (by simp)
          | ok rest =>
            rw [h0, h4, h8, hr] at h
            simp only [exceptBind_ok, Except.ok.injEq] at h
            subst h
            simp [readGroups_length hr]

theorem readGroups_size : ∀ {d : Bytes} {n : Nat} {gs : List Group},
    readGroups d n = .ok gs → 12 * n ≤ d.length
  | _, 0, _, _ => Nat.zero_le _
  | d, n + 1, gs, h => by
    unfold readGroups at h
    cases h0 : readU32 d 0 with
    | error e => rw [h0] at h; exact absurd h (by simp)
    | ok s =>
      cases h4 : readU32 d 4 with
      | error e => rw [h0, h4] at h; exact absurd h (by simp)
      | ok e =>
        cases h8 : readU32 d 8 with
        | error e => rw [h0, h4, h8] at h; exact absurd h (by simp)
        | ok g =>
          cases hr : readGroups (d.drop 12) n with
          | error e => rw [h0, h4, h8, hr] at h; exact absurd h (by simp)
          | ok rest =>
            have hlen := readU32_ok_le h8
            have := readGroups_size hr
            simp only [List.length_drop] at this
            omega

theorem readGroups_values : ∀ {d : Bytes} {n : Nat} {gs : List Group},
    BytesOk d → readGroups d n = .ok gs →
    ∀ g ∈ gs, g.1 < 2^32 ∧ g.2.1 < 2^32 ∧ g.2.2 < 2^32
  | _, 0, gs, _, h => by
    simp only [readGroups] at h
    cases h
    simp
  | d, n + 1, gs, hB, h => by
    unfold readGroups at h
    cases h0 : readU32 d 0 with
    | error e => rw [h0] at h; exact absurd h (by simp)
    | ok s =>
      cases h4 : readU32 d 4 with
      | error e => rw [h0, h4] at h; exact absurd h (by simp)
      | ok e =>
        cases h8 : readU32 d 8 with
        | error e => rw [h0, h4, h8] at h; exact absurd h (by simp)
        | ok g =>
          cases hr : readGroups (d.drop 12) n with
          | error e => rw [h0, h4, h8, hr] at h; exact absurd h (by simp)
          | ok rest =>
            rw [h0, h4, h8, hr] at h
            simp only [exceptBind_ok, Except.ok.injEq] at h
            subst h
            intro x hx
            rcases List.mem_cons.mp hx with rfl | hx'
            · exact ⟨readU32_lt hB h0, readU32_lt hB h4, readU32_lt hB h8⟩
            · exact readGroups_values (BytesOk_drop 12 hB) hr x hx'

theorem readGroups_roundtrip : ∀ (gs : List Group) (extra : Bytes),
    (∀ g ∈ gs, g.1 < 2^32 ∧ g.2.1 < 2^32 ∧ g.2.2 < 2^32) →
    readGroups (gs.flatMap groupBytes ++ extra) gs.length = .ok gs
  | [], extra, _ => rfl
  | g :: gs, extra, h => by
    obtain ⟨h1, h2, h3⟩ := h g (List.mem_cons_self ..)
    have hrest := readGroups_roundtrip gs extra fun x hx => h x (List.mem_cons_of_mem _ hx)
    have hshape : (g :: gs).flatMap groupBytes ++ extra
        = u32Bytes g.1 ++ (u32Bytes g.2.1 ++ (u32Bytes g.2.2
            ++ (gs.flatMap groupBytes ++ extra))) := by
      simp [groupBytes, List.append_assoc]
    have e0 : readU32 ((g :: gs).flatMap groupBytes ++ extra) 0 = .ok g.1 := by
      rw [hshape, readU32_u32Bytes, Nat.mod_eq_of_lt h1]
    have e4 : readU32 ((g :: gs).flatMap groupBytes ++ extra) 4 = .ok g.2.1 := by
      rw [hshape, readU32_append_right _ (by simp)]
      simp only [length_u32Bytes]
      rw [show (4:Nat) - 4 = 0 from rfl, readU32_u32Bytes, Nat.mod_eq_of_lt h2]
    have e8 : readU32 ((g :: gs).flatMap groupBytes ++ extra) 8 = .ok g.2.2 := by
      rw [hshape, readU32_append_right _ (by simp)]
      simp only [length_u32Bytes]
      rw [show (8:Nat) - 4 = 4 from rfl, readU32_append_right _ (by simp)]
      simp only [length_u32Bytes]
      rw [show (4:Nat) - 4 = 0 from rfl, readU32_u32Bytes, Nat.mod_eq_of_lt h3]
    have edrop : ((g :: gs).flatMap groupBytes ++ extra).drop 12
        = gs.flatMap groupBytes ++ extra := by
      rw [hshape, drop_append_right _ (by simp)]
      simp only [length_u32Bytes]
      rw [show (12:Nat) - 4 = 8 from rfl, drop_append_right _ (by simp)]
      simp only [length_u32Bytes]
      rw [show (8:Nat) - 4 = 4 from rfl, drop_append_right _ (by simp)]
      simp
    show readGroups _ (gs.length + 1) = _
    unfold readGroups
    rw [e0]
    simp only [exceptBind_ok]
    rw [e4]
    simp only [exceptBind_ok]
    rw [e8]
    simp only [exceptBind_ok]
    rw [edrop, hrest]
    simp

theorem length_flatMap_groupBytes : ∀ (gs : List Group),
    (gs.flatMap groupBytes).length = 12 * gs.length
  | [] => rfl
  | g :: gs => by
    simp [length_flatMap_groupBytes gs]
    ring

theorem getD_mem_or (l : List α) (n : Nat) (d : α) :
    l.getD n d ∈ l ∨ l.getD n d = d := by
  cases h : l[n]? with
  | none => right; simp [List.getD, h]
  | some x =>
    left
    have : l.getD n d = x := by simp [List.getD, h]
    rw [this]
    exact mem_of_getElem? h

theorem spliceGroups_values {gs : List Group} {N : Nat}
    (h : ∀ g ∈ gs, g.1 < 2^32 ∧ g.2.1 < 2^32 ∧ g.2.2 < 2^32) (hN : N ≤ 65535) :
    ∀ g ∈ spliceGroups gs N, g.1 < 2^32 ∧ g.2.1 < 2^32 ∧ g.2.2 < 2^32 := by
  have hW : glyphStartCode < 2^32 := by
    simp only [glyphStartCode]
    omega
  have hge : glyphEndCode N + 1 < 2^32 := by
    simp only [glyphEndCode, glyphStartCode]
    omega
  have hwin : ((glyphStartCode, glyphEndCode N, 0) : Group).1 < 2^32 ∧
      ((glyphStartCode, glyphEndCode N, 0) : Group).2.1 < 2^32 ∧
      ((glyphStartCode, glyphEndCode N, 0) : Group).2.2 < 2^32 :=
    ⟨hW, by show glyphEndCode N < 2^32; omega, by show (0:Nat) < 2^32; omega⟩
  have hg0 := getD_mem_or gs
    (partitionPoint (fun g => decide (g.2.1 < glyphStartCode)) gs) default
  have hg1 := getD_mem_or gs
    (partitionPoint (fun g => decide (g.1 ≤ glyphEndCode N)) gs - 1) default
  intro g hg
  unfold spliceGroups at hg
  simp only at hg
  split at hg
  · rcases List.mem_append.mp hg with hg' | hg'
    · rcases List.mem_append.mp hg' with hg'' | hg''
      · exact h g (List.mem_of_mem_take hg'')
      · rcases List.mem_singleton.mp hg'' with rfl
        exact hwin
    · exact h g (List.mem_of_mem_drop hg')
  · rcases List.mem_append.mp hg with hg' | hg'
    swap
    · exact h g (List.mem_of_mem_drop hg')
    rcases List.mem_append.mp hg' with hg'' | hg''
    · exact h g (List.mem_of_mem_take hg'')
    rcases List.mem_append.mp hg'' with hm | hm
    swap
    · -- right remainder
      split at hm
      · rcases List.mem_singleton.mp hm with rfl
        refine ⟨hge, ?_, ?_⟩
        · show (gs.getD (partitionPoint (fun g => decide (g.1 ≤ glyphEndCode N)) gs - 1)
            default).2.1 < 2^32
          rcases hg1 with hmem | hdef
          · exact (h _ hmem).2.1
          · rw [hdef]
            show (0:Nat) < 2^32
            omega
        · exact Nat.mod_lt _ (by omega)
      · simp at hm
    rcases List.mem_append.mp hm with hm' | hm'
    · -- left remainder
      split at hm'
      · rcases List.mem_singleton.mp hm' with rfl
        refine ⟨?_, by show glyphStartCode - 1 < 2^32; omega, ?_⟩
        · show (gs.getD (partitionPoint (fun g => decide (g.2.1 < glyphStartCode)) gs)
            default).1 < 2^32
          rcases hg0 with hmem | hdef
          · exact (h _ hmem).1
          · rw [hdef]
            show (0:Nat) < 2^32
            omega
        · show (gs.getD (partitionPoint (fun g => decide (g.2.1 < glyphStartCode)) gs)
            default).2.2 < 2^32
          rcases hg0 with hmem | hdef
          · exact (h _ hmem).2.2
          · rw [hdef]
            show (0:Nat) < 2^32
            omega
      · simp at hm'
    · rcases List.mem_singleton.mp hm' with rfl
      exact hwin

theorem spliceGroups_length_le (gs : List Group) (N : Nat) :
    (spliceGroups gs N).length ≤ 2 * gs.length + 3 := by
  unfold spliceGroups
  simp only
  split
  · simp only [List.length_append, List.length_take, List.length_drop,
      List.length_singleton]
    omega
  · simp only [List.length_append, List.length_take, List.length_drop,
      List.length_singleton]
    have h1 : (if (gs.getD (partitionPoint (fun g => decide (g.2.1 < glyphStartCode)) gs)
        default).1 < glyphStartCode then
          [((gs.getD (partitionPoint (fun g => decide (g.2.1 < glyphStartCode)) gs)
            default).1, glyphStartCode - 1,
            (gs.getD (partitionPoint (fun g => decide (g.2.1 < glyphStartCode)) gs)
            default).2.2)] else []).length ≤ 1 := by
      split <;> simp
    have h2 : (if glyphEndCode N < (gs.getD
        (partitionPoint (fun g => decide (g.1 ≤ glyphEndCode N)) gs - 1) default).2.1 then
          [(glyphEndCode N + 1,
            (gs.getD (partitionPoint (fun g => decide (g.1 ≤ glyphEndCode N)) gs - 1)
              default).2.1,
            wsub (wadd (wadd (gs.getD (partitionPoint
              (fun g => decide (g.1 ≤ glyphEndCode N)) gs - 1) default).2.2
              (glyphEndCode N)) 1)
              (gs.getD (partitionPoint (fun g => decide (g.1 ≤ glyphEndCode N)) gs - 1)
                default).1)] else []).length ≤ 1 := by
      split <;> simp
    omega

theorem parseGroups12_ok_elim {data : Bytes} {gs : List Group}
    (h : parseGroups12 data = .ok gs) :
    ∃ n, readU32 data 12 = .ok n ∧ 16 ≤ data.length ∧
      readGroups (data.drop 16) n = .ok gs := by
  unfold parseGroups12 at h
  cases h12 : readU32 data 12 with
  | error e => rw [h12] at h; exact absurd h (by simp)
  | ok n =>
    rw [h12] at h
    simp only [exceptBind_ok] at h
    unfold sliceFrom at h
    split at h
    · simp only [exceptBind_ok] at h
      exact ⟨n, rfl, by omega, h⟩
    · exact absurd h (by simp)

theorem mapGlyphToPua12_roundtrip {data : Bytes} {gs : List Group} (N : Nat)
    (hB : BytesOk data) (hlen : data.length < 2^32) (hN : N ≤ 65535)
    (hparse : parseGroups12 data = .ok gs) :
    ∃ out, mapGlyphToPua12 data N = .ok out ∧
      parseGroups12 out = .ok (spliceGroups gs N) := by
  obtain ⟨n, h12, h16, hrg⟩ := parseGroups12_ok_elim hparse
  have hglen : gs.length = n := readGroups_length hrg
  have hsize : 12 * n ≤ data.length - 16 := by
    have := readGroups_size hrg
    simpa using this
  have hvals := readGroups_values (BytesOk_drop 16 hB) hrg
  have hvals' := spliceGroups_values hvals hN
  have hclen : (spliceGroups gs N).length < 2^32 := by
    have := spliceGroups_length_le gs N
    omega
  set gs2 := spliceGroups gs N with hgs2
  -- the rebuilt buffer
  have htake : (data.take 12).length = 12 := by
    simp
    omega
  set inner : Bytes := data.take 12 ++ u32Bytes gs2.length ++ gs2.flatMap groupBytes
    with hinner
  have hinnerlen : inner.length = 16 + 12 * gs2.length := by
    simp only [hinner, List.length_append, htake, length_u32Bytes,
      length_flatMap_groupBytes]
    try omega
  have hpad : pad4 inner = inner := pad4_eq_self (by omega)
  have hout : mapGlyphToPua12 data N = .ok (patchU32 inner 4 inner.length) := by
    unfold mapGlyphToPua12
    rw [hparse]
    simp only [exceptBind_ok]
    unfold sliceTo
    rw [if_pos (by omega)]
    simp only [exceptBind_ok]
    rw [← hgs2, ← hinner, hpad]
  set out : Bytes := patchU32 inner 4 inner.length with hout2
  -- out in split form
  have hsplit : out = data.take 4 ++ (u32Bytes inner.length
      ++ ((data.take 12).drop 8 ++ (u32Bytes gs2.length ++ gs2.flatMap groupBytes))) := by
    show inner.take 4 ++ u32Bytes inner.length ++ inner.drop 8 = _
    have h1 : inner.take 4 = data.take 4 := by
      rw [hinner, List.append_assoc, List.take_append_eq_append_take, htake]
      simp [List.take_take]
    have h2 : inner.drop 8 = (data.take 12).drop 8
        ++ (u32Bytes gs2.length ++ gs2.flatMap groupBytes) := by
      rw [hinner, List.append_assoc, List.drop_append_eq_append_drop, htake]
      norm_num
    rw [h1, h2]
    simp [List.append_assoc]
  have hlen4 : (data.take 4).length = 4 := by
    simp
    omega
  have hlen8 : ((data.take 12).drop 8).length = 4 := by
    simp
    omega
  refine ⟨out, hout, ?_⟩
  have hcnt : readU32 out 12 = .ok gs2.length := by
    rw [hsplit, readU32_append_right _ (by omega), hlen4]
    rw [show (12:Nat) - 4 = 8 from rfl, readU32_append_right _ (by simp), length_u32Bytes]
    rw [show (8:Nat) - 4 = 4 from rfl, readU32_append_right _ (by omega), hlen8]
    rw [show (4:Nat) - 4 = 0 from rfl, readU32_u32Bytes, Nat.mod_eq_of_lt hclen]
  have hdrop : out.drop 16 = gs2.flatMap groupBytes := by
    rw [hsplit, drop_append_right _ (by omega), hlen4]
    rw [show (16:Nat) - 4 = 12 from rfl, drop_append_right _ (by simp), length_u32Bytes]
    rw [show (12:Nat) - 4 = 8 from rfl, drop_append_right _ (by omega), hlen8]
    rw [show (8:Nat) - 4 = 4 from rfl, drop_append_right _ (by simp), length_u32Bytes]
    simp
  have houtlen : 16 ≤ out.length := by
    have : out.length = inner.length := by
      show (patchU32 inner 4 inner.length).length = _
      unfold patchU32
      simp only [List.length_append, List.length_take, length_u32Bytes, List.length_drop]
      omega
    omega
  unfold parseGroups12
  rw [hcnt]
  simp only [exceptBind_ok]
  unfold sliceFrom
  rw [if_pos houtlen]
  simp only [exceptBind_ok]
  rw [hdrop]
  have := readGroups_roundtrip gs2 [] hvals'
  simpa using this

/-! ### Structural lemmas about `spliceGroups` -/

theorem take_length_takeWhile (p : α → Bool) (l : List α) :
    l.take (l.takeWhile p).length = l.takeWhile p :=
  (List.prefix_iff_eq_take.mp (List.takeWhile_prefix p)).symm

theorem drop_length_takeWhile (p : α → Bool) (l : List α) :
    l.drop (l.takeWhile p).length = l.dropWhile p := by
  have h := List.take_append_drop (l.takeWhile p).length l
  rw [take_length_takeWhile] at h
  have h2 : l.takeWhile p ++ l.drop (l.takeWhile p).length
      = l.takeWhile p ++ l.dropWhile p := by
    rw [h, List.takeWhile_append_dropWhile]
  exact List.append_cancel_left h2

theorem takeWhile_all_append {p : α → Bool} {A B : List α} (h : ∀ a ∈ A, p a) :
    (A ++ B).takeWhile p = A ++ B.takeWhile p := by
  rw [List.takeWhile_append, if_pos]
  rw [List.takeWhile_eq_self_iff.mpr h]

theorem head_dropWhile_false {p : α → Bool} (l : List α) :
    ∀ x ∈ (l.dropWhile p).head?, p x = false := by
  intro x hx
  have := List.head?_dropWhile_not p l
  rw [hx] at this
  exact this

theorem sorted_head_lt : ∀ {g : Group} {l : List Group},
    GroupsWF (g :: l) → GroupsSorted (g :: l) → ∀ b ∈ l, g.2.1 < b.1
  | _, [], _, _, b, hb => absurd hb (by simp)
  | g, h :: t, hwf, hs, b, hb => by
    have hgh : g.2.1 < h.1 := (List.chain'_cons.mp hs).1
    rcases List.mem_cons.mp hb with rfl | hb'
    · exact hgh
    · have hwf' : GroupsWF (h :: t) := fun x hx => hwf x (List.mem_cons_of_mem _ hx)
      have hs' : GroupsSorted (h :: t) := (List.chain'_cons.mp hs).2
      have h1 := sorted_head_lt hwf' hs' b hb'
      have h2 := hwf h (by simp)
      omega

theorem wf_sorted_pairwise : ∀ {l : List Group},
    GroupsWF l → GroupsSorted l → l.Pairwise (fun a b => a.2.1 < b.1)
  | [], _, _ => List.Pairwise.nil
  | g :: l, hwf, hs => by
    refine List.pairwise_cons.mpr ⟨sorted_head_lt hwf hs, ?_⟩
    exact wf_sorted_pairwise (fun x hx => hwf x (List.mem_cons_of_mem _ hx))
      (List.chain'_cons'.mp hs).2

/-- The A/C/D decomposition of a spliced group list: `A` is the prefix of
groups entirely below the window, `C` the block of groups the splice
replaces, `D` the suffix of groups entirely above it; the splice output is
`A`, the (up to three) replacement groups, then `D`. -/
theorem spliceGroups_decomp (gs : List Group) (N : Nat)
    (hwf : GroupsWF gs) (hN : 1 ≤ N) :
    ∃ A C D,
      gs = A ++ C ++ D ∧
      (∀ a ∈ A, a.2.1 < glyphStartCode) ∧
      (∀ x ∈ C, x.1 ≤ glyphEndCode N) ∧
      (∀ x ∈ C.head?, glyphStartCode ≤ x.2.1) ∧
      (∀ z ∈ D.head?, glyphEndCode N < z.1) ∧
      ((C = [] ∧
          spliceGroups gs N = A ++ [(glyphStartCode, glyphEndCode N, 0)] ++ D) ∨
        (∃ hC : C ≠ [],
          spliceGroups gs N = A
            ++ ((if (C.head hC).1 < glyphStartCode then
                  [((C.head hC).1, glyphStartCode - 1, (C.head hC).2.2)] else [])
              ++ [(glyphStartCode, glyphEndCode N, 0)]
              ++ (if glyphEndCode N < (C.getLast hC).2.1 then
                  [(glyphEndCode N + 1, (C.getLast hC).2.1,
                    wsub (wadd (wadd (C.getLast hC).2.2 (glyphEndCode N)) 1)
                      (C.getLast hC).1)]
                  else []))
            ++ D)) := by
  have hWge : glyphStartCode ≤ glyphEndCode N := by
    simp only [glyphStartCode, glyphEndCode]
    omega
  set p1 : Group → Bool := fun g => decide (g.2.1 < glyphStartCode) with hp1
  set p2 : Group → Bool := fun g => decide (g.1 ≤ glyphEndCode N) with hp2
  set A := gs.takeWhile p1 with hA
  set B := gs.dropWhile p1 with hB
  set C := B.takeWhile p2 with hC
  set D := B.dropWhile p2 with hD
  have hgsAB : gs = A ++ B := (List.takeWhile_append_dropWhile p1 gs).symm
  have hBCD : B = C ++ D := (List.takeWhile_append_dropWhile p2 B).symm
  have hmemA : ∀ a ∈ A, a.2.1 < glyphStartCode := by
    intro a ha
    have := List.mem_takeWhile_imp ha
    simpa [hp1] using this
  have hallA : ∀ a ∈ A, p2 a := by
    intro a ha
    have h1 := hmemA a ha
    have h2 := hwf a ((List.takeWhile_prefix p1).subset ha)
    simp only [hp2, decide_eq_true_eq]
    omega
  have hmemC : ∀ x ∈ C, x.1 ≤ glyphEndCode N := by
    intro x hx
    have := List.mem_takeWhile_imp hx
    simpa [hp2] using this
  have hheadC : ∀ x ∈ C.head?, glyphStartCode ≤ x.2.1 := by
    intro x hx
    rw [hC, List.head?_takeWhile] at hx
    have hxB : B.head? = some x := by
      rcases hB0 : B.head? with _ | b
      · rw [hB0] at hx
        simp [Option.filter] at hx
      · rw [hB0] at hx
        by_cases hpb : p2 b
        · simp only [Option.filter, hpb, if_true, Option.mem_def,
            Option.some.injEq] at hx
          rw [hx]
        · simp [Option.filter, hpb] at hx
    have := @head_dropWhile_false _ p1 gs x (by rw [← hB]; exact hxB)
    simp only [hp1, decide_eq_false_iff_not, not_lt] at this
    exact this
  have hheadD : ∀ z ∈ D.head?, glyphEndCode N < z.1 := by
    intro z hz
    have := @head_dropWhile_false _ p2 B z hz
    simp only [hp2, decide_eq_false_iff_not, not_le] at this
    exact this
  have hiStart : partitionPoint p1 gs = A.length := rfl
  have hiEnd : partitionPoint p2 gs = A.length + C.length := by
    show (gs.takeWhile p2).length = _
    conv_lhs => rw [hgsAB]
    rw [takeWhile_all_append hallA]
    simp [hC]
  have htake : gs.take A.length = A := by
    conv_lhs => rw [hgsAB]
    rw [List.take_append_eq_append_take]
    simp
  have hdropA : gs.drop A.length = B := by
    conv_lhs => rw [hA, drop_length_takeWhile]
  have hdropAC : gs.drop (A.length + C.length) = D := by
    have : gs = (A ++ C) ++ D := by rw [List.append_assoc, ← hBCD, ← hgsAB]
    conv_lhs => rw [this]
    rw [show A.length + C.length = (A ++ C).length by simp, List.drop_left]
  refine ⟨A, C, D, by rw [List.append_assoc, ← hBCD, ← hgsAB], hmemA, hmemC,
    hheadC, hheadD, ?_⟩
  by_cases hCnil : C = []
  · left
    refine ⟨hCnil, ?_⟩
    unfold spliceGroups
    simp only
    rw [← hp1, ← hp2, hiStart, hiEnd, hCnil]
    simp only [List.length_nil, Nat.add_zero, if_pos rfl]
    rw [htake, hdropA, hBCD, hCnil]
    simp
  · right
    refine ⟨hCnil, ?_⟩
    unfold spliceGroups
    simp only
    rw [← hp1, ← hp2, hiStart, hiEnd]
    rw [if_neg (by have := List.length_pos_of_ne_nil hCnil; omega)]
    rw [htake, hdropAC]
    have hCpos : 0 < C.length := List.length_pos_of_ne_nil hCnil
    have hgetD0 : gs.getD A.length default = C.head hCnil := by
      have hsome : gs[A.length]? = some (C.head hCnil) := by
        conv_lhs => rw [hgsAB, hBCD]
        rw [List.getElem?_append_right (Nat.le_refl _), Nat.sub_self,
          List.getElem?_append_left hCpos, ← List.head?_eq_getElem?,
          List.head?_eq_head hCnil]
      simp [List.getD, hsome]
    have hgetD1 : gs.getD (A.length + C.length - 1) default = C.getLast hCnil := by
      have hidx : A.length + C.length - 1 = A.length + (C.length - 1) := by omega
      have hsome : gs[A.length + C.length - 1]? = some (C.getLast hCnil) := by
        conv_lhs => rw [hgsAB, hBCD, hidx]
        rw [List.getElem?_append_right (by omega), Nat.add_sub_cancel_left,
          List.getElem?_append_left (by omega), ← List.getLast?_eq_getElem?,
          List.getLast?_eq_getLast _ hCnil]
      simp [List.getD, hsome]
    rw [hgetD0, hgetD1]

theorem mem_of_getLast? {l : List α} {x : α} (h : l.getLast? = some x) : x ∈ l := by
  rw [List.getLast?_eq_getElem?] at h
  exact mem_of_getElem? h

theorem GroupsWF_of_append_left {A B : List Group} (h : GroupsWF (A ++ B)) :
    GroupsWF A := fun g hg => h g (List.mem_append_left _ hg)

theorem GroupsWF_of_append_right {A B : List Group} (h : GroupsWF (A ++ B)) :
    GroupsWF B := fun g hg => h g (List.mem_append_right _ hg)

/-- In a well-formed sorted group list whose head starts above `K`, every
group starts above `K`. -/
theorem sorted_all_start_gt {K : Nat} : ∀ {l : List Group},
    GroupsWF l → GroupsSorted l → (∀ y ∈ l.head?, K < y.1) →
    ∀ x ∈ l, K < x.1
  | [], _, _, _, x, hx => absurd hx (by simp)
  | h :: t, hwf, hs, hhead, x, hx => by
    have hh : K < h.1 := hhead h rfl
    rcases List.mem_cons.mp hx with rfl | hx'
    · exact hh
    · have h1 := sorted_head_lt hwf hs x hx'
      have h2 := hwf h (by simp)
      omega

/-! ### Evaluation lemmas -/

theorem evalGroups_append (a b : List Group) (c : Nat) :
    evalGroups (a ++ b) c = (evalGroups a c).or (evalGroups b c) := by
  simp [evalGroups, List.findSome?_append]

theorem evalGroups_nomatch {l : List Group} {c : Nat}
    (h : ∀ g ∈ l, ¬(g.1 ≤ c ∧ c ≤ g.2.1)) : evalGroups l c = none := by
  apply List.findSome?_eq_none_iff.mpr
  intro x hx
  simp [h x hx]

theorem evalGroups_singleton (g : Group) (c : Nat) :
    evalGroups [g] c =
      if g.1 ≤ c ∧ c ≤ g.2.1 then some ((g.2.2 + (c - g.1)) % 2^32) else none := by
  by_cases h : g.1 ≤ c ∧ c ≤ g.2.1 <;> simp [evalGroups, List.findSome?, h]

theorem evalGroups_nil (c : Nat) : evalGroups [] c = none := rfl

/-! ### The PUA remapper preserves the group-list invariant (C7 core) -/

theorem spliceGroups_invariant (gs : List Group) (N : Nat)
    (hwf : GroupsWF gs) (hs : GroupsSorted gs) (hN : 1 ≤ N) :
    GroupsWF (spliceGroups gs N) ∧ GroupsSorted (spliceGroups gs N) := by
  have hWge : glyphStartCode ≤ glyphEndCode N := by
    simp only [glyphStartCode, glyphEndCode]
    omega
  have hWpos : 1 ≤ glyphStartCode := by
    simp only [glyphStartCode]
    omega
  obtain ⟨A, C, D, hsplit, hA, hC, hheadC, hheadD, hbranch⟩ :=
    spliceGroups_decomp gs N hwf hN
  rw [hsplit] at hwf hs
  have hwfA := GroupsWF_of_append_left (GroupsWF_of_append_left hwf)
  have hwfC := GroupsWF_of_append_right (GroupsWF_of_append_left hwf)
  have hwfD := GroupsWF_of_append_right hwf
  rw [List.append_assoc] at hs
  obtain ⟨hchainA, hchainCD, hbridgeA⟩ := List.chain'_append.mp hs
  obtain ⟨hchainC, hchainD, hbridgeCD⟩ := List.chain'_append.mp hchainCD
  rcases hbranch with ⟨hCnil, hout⟩ | ⟨hCne, hout⟩
  · -- no group intersects the window: plain insertion
    rw [hout]
    constructor
    · intro g hg
      rcases List.mem_append.mp hg with hg' | hg'
      · rcases List.mem_append.mp hg' with hg'' | hg''
        · exact hwfA g hg''
        · rcases List.mem_singleton.mp hg'' with rfl
          exact hWge
      · exact hwfD g hg'
    · rw [List.append_assoc]
      refine List.chain'_append.mpr ⟨hchainA, ?_, ?_⟩
      · refine List.chain'_append.mpr ⟨by simp, hchainD, ?_⟩
        intro x hx y hy
        rcases List.mem_singleton.mp (by simpa using hx) with rfl
        exact hheadD y hy
      · intro x hx y hy
        rcases (by simpa using hy : (glyphStartCode, glyphEndCode N, 0) = y)
          with rfl
        have := hA x (mem_of_getLast? hx)
        show x.2.1 < glyphStartCode
        exact this
  · -- the splice branch
    set ch := C.head hCne with hch
    set cl := C.getLast hCne with hcl
    have hchC : ch ∈ C := List.head_mem hCne
    have hclC : cl ∈ C := List.getLast_mem hCne
    have hchHi : glyphStartCode ≤ ch.2.1 :=
      hheadC ch (by rw [hch, List.head?_eq_head hCne]; rfl)
    have hclLo : cl.1 ≤ glyphEndCode N := hC cl hclC
    rw [hout]
    have hmidwf : GroupsWF ((if ch.1 < glyphStartCode then
          [(ch.1, glyphStartCode - 1, ch.2.2)] else [])
        ++ [(glyphStartCode, glyphEndCode N, 0)]
        ++ (if glyphEndCode N < cl.2.1 then
          [(glyphEndCode N + 1, cl.2.1,
            wsub (wadd (wadd cl.2.2 (glyphEndCode N)) 1) cl.1)] else [])) := by
      intro g hg
      rcases List.mem_append.mp hg with hg' | hg'
      · rcases List.mem_append.mp hg' with hg'' | hg''
        · split at hg''
          · rcases List.mem_singleton.mp hg'' with rfl
            show ch.1 ≤ glyphStartCode - 1
            omega
          · simp at hg''
        · rcases List.mem_singleton.mp hg'' with rfl
          exact hWge
      · split at hg'
        · rcases List.mem_singleton.mp hg' with rfl
          show glyphEndCode N + 1 ≤ cl.2.1
          omega
        · simp at hg'
    constructor
    · intro g hg
      rcases List.mem_append.mp hg with hg' | hg'
      · rcases List.mem_append.mp hg' with hg'' | hg''
        · exact hwfA g hg''
        · exact hmidwf g hg''
      · exact hwfD g hg'
    · have hCDhead : (C ++ D).head? = some ch := by
        rw [hch]
        rcases C with _ | ⟨b, L⟩
        · exact absurd rfl hCne
        · simp
      have hclLast : cl ∈ C.getLast? := by
        rw [List.getLast?_eq_getLast _ hCne, hcl]
        rfl
      rw [List.append_assoc]
      refine List.chain'_append.mpr ⟨hchainA, ?_, ?_⟩
      · refine List.chain'_append.mpr ⟨?_, hchainD, ?_⟩
        · -- chain of the replacement block
          by_cases hL : ch.1 < glyphStartCode <;>
            by_cases hR : glyphEndCode N < cl.2.1
          · rw [if_pos hL, if_pos hR]
            simp only [List.cons_append, List.nil_append]
            refine List.chain'_cons.mpr ⟨?_, List.chain'_pair.mpr ?_⟩
            · show glyphStartCode - 1 < glyphStartCode
              omega
            · show glyphEndCode N < glyphEndCode N + 1
              omega
          · rw [if_pos hL, if_neg hR, List.append_nil]
            simp only [List.cons_append, List.nil_append]
            refine List.chain'_pair.mpr ?_
            show glyphStartCode - 1 < glyphStartCode
            omega
          · rw [if_neg hL, if_pos hR, List.nil_append]
            refine List.chain'_pair.mpr ?_
            show glyphEndCode N < glyphEndCode N + 1
            omega
          · rw [if_neg hL, if_neg hR, List.nil_append, List.append_nil]
            simp
        · -- replacement block end < D's head start
          intro x hx y hy
          have hyD := hheadD y hy
          by_cases hR : glyphEndCode N < cl.2.1
          · rw [if_pos hR, List.getLast?_concat] at hx
            rcases (by simpa using hx : (glyphEndCode N + 1, cl.2.1,
                wsub (wadd (wadd cl.2.2 (glyphEndCode N)) 1) cl.1) = x) with rfl
            show cl.2.1 < y.1
            exact hbridgeCD cl hclLast y hy
          · rw [if_neg hR, List.append_nil, List.getLast?_concat] at hx
            rcases (by simpa using hx : (glyphStartCode, glyphEndCode N, 0) = x)
              with rfl
            show glyphEndCode N < y.1
            exact hyD
      · -- A's last group ends before the replacement block starts
        intro x hx y hy
        have hxA := hA x (mem_of_getLast? hx)
        by_cases hL : ch.1 < glyphStartCode
        · rw [if_pos hL] at hy
          rcases (by simpa using hy : (ch.1, glyphStartCode - 1, ch.2.2) = y)
            with rfl
          show x.2.1 < ch.1
          exact hbridgeA x hx ch (by rw [hCDhead]; rfl)
        · rw [if_neg hL, List.nil_append] at hy
          rcases (by simpa using hy : (glyphStartCode, glyphEndCode N, 0) = y)
            with rfl
          show x.2.1 < glyphStartCode
          exact hxA

theorem evalGroups_cons (g : Group) (l : List Group) (c : Nat) :
    evalGroups (g :: l) c = (evalGroups [g] c).or (evalGroups l c) := by
  rw [show g :: l = [g] ++ l from rfl, evalGroups_append]

theorem evalGroups_singleton3 (s e gl c : Nat) :
    evalGroups [(s, e, gl)] c =
      if s ≤ c ∧ c ≤ e then some ((gl + (c - s)) % 2^32) else none :=
  evalGroups_singleton (s, e, gl) c

/-! ### The PUA remapper maps the window onto the glyph range (C2 core) -/

theorem spliceGroups_eval_window (gs : List Group) (N g : Nat)
    (hwf : GroupsWF gs) (hN : 1 ≤ N) (hN2 : N ≤ 65535) (hg : g < N) :
    evalGroups (spliceGroups gs N) (glyphStartCode + g) = some g := by
  have hWge : glyphStartCode ≤ glyphEndCode N := by
    simp only [glyphStartCode, glyphEndCode]
    omega
  have hgeval : glyphEndCode N = glyphStartCode + N - 1 := rfl
  obtain ⟨A, C, D, hsplit, hA, hC, hheadC, hheadD, hbranch⟩ :=
    spliceGroups_decomp gs N hwf hN
  have hAnone : evalGroups A (glyphStartCode + g) = none := by
    apply evalGroups_nomatch
    intro a ha
    have := hA a ha
    omega
  have hwin : evalGroups [(glyphStartCode, glyphEndCode N, 0)]
      (glyphStartCode + g) = some g := by
    rw [evalGroups_singleton3, if_pos (by omega)]
    simp only [Option.some.injEq]
    omega
  rcases hbranch with ⟨_hCnil, hout⟩ | ⟨hCne, hout⟩
  · rw [hout, evalGroups_append, evalGroups_append, hAnone, hwin]
    simp
  · rw [hout, evalGroups_append, evalGroups_append, hAnone]
    have hifL : evalGroups (if (C.head hCne).1 < glyphStartCode then
        [((C.head hCne).1, glyphStartCode - 1, (C.head hCne).2.2)] else [])
        (glyphStartCode + g) = none := by
      split
      · rw [evalGroups_singleton3, if_neg (by omega)]
      · rfl
    rw [evalGroups_append, evalGroups_append, hifL, hwin]
    simp

/-! ### The PUA remapper preserves mappings outside the window (C4 core) -/

set_option maxHeartbeats 1000000 in
theorem spliceGroups_eval_frame (gs : List Group) (N c : Nat)
    (hwf : GroupsWF gs) (hs : GroupsSorted gs)
    (hvals : ∀ x ∈ gs, x.1 < 2^32 ∧ x.2.1 < 2^32 ∧ x.2.2 < 2^32)
    (hN : 1 ≤ N)
    (hc : c < glyphStartCode ∨ glyphEndCode N < c) :
    evalGroups (spliceGroups gs N) c = evalGroups gs c := by
  have hWge : glyphStartCode ≤ glyphEndCode N := by
    simp only [glyphStartCode, glyphEndCode]
    omega
  have hWpos : 1 ≤ glyphStartCode := by
    simp only [glyphStartCode]
    omega
  obtain ⟨A, C, D, hsplit, hA, hC, hheadC, hheadD, hbranch⟩ :=
    spliceGroups_decomp gs N hwf hN
  rw [hsplit] at hwf hs hvals
  conv_rhs => rw [hsplit]
  have hwfA := GroupsWF_of_append_left (GroupsWF_of_append_left hwf)
  have hwfC := GroupsWF_of_append_right (GroupsWF_of_append_left hwf)
  have hwfD := GroupsWF_of_append_right hwf
  rw [List.append_assoc] at hs
  obtain ⟨hchainA, hchainCD, hbridgeA⟩ := List.chain'_append.mp hs
  obtain ⟨hchainC, hchainD, hbridgeCD⟩ := List.chain'_append.mp hchainCD
  have hDnone : c < glyphStartCode → evalGroups D c = none := by
    intro hcW
    apply evalGroups_nomatch
    intro d hd
    have := sorted_all_start_gt hwfD hchainD hheadD d hd
    omega
  have hAnone : glyphEndCode N < c → evalGroups A c = none := by
    intro hge
    apply evalGroups_nomatch
    intro a ha
    have := hA a ha
    omega
  have hwin : evalGroups [(glyphStartCode, glyphEndCode N, 0)] c = none := by
    rw [evalGroups_singleton3, if_neg (by omega)]
  rcases hbranch with ⟨hCnil, hout⟩ | ⟨hCne, hout⟩
  · rw [hout, hCnil]
    simp only [evalGroups_append, hwin, evalGroups_nil, Option.or_none,
      Option.none_or]
  · obtain ⟨b, L, rfl⟩ := List.exists_cons_of_ne_nil hCne
    simp only [List.head_cons] at hout
    set cl := (b :: L).getLast hCne with hcl
    have hclC : cl ∈ b :: L := List.getLast_mem hCne
    have hbHi : glyphStartCode ≤ b.2.1 := hheadC b rfl
    have hclLo : cl.1 ≤ glyphEndCode N := hC cl hclC
    have hbvals := hvals b (by simp)
    have hclvals := hvals cl (by
      apply List.mem_append_left
      exact List.mem_append_right _ hclC)
    rw [hout]
    rcases hc with hcW | hcge
    · -- below the window: the left remainder behaves exactly like the
      -- first replaced group
      have hD := hDnone hcW
      have hifR : evalGroups (if glyphEndCode N < cl.2.1 then
          [(glyphEndCode N + 1, cl.2.1,
            wsub (wadd (wadd cl.2.2 (glyphEndCode N)) 1) cl.1)] else []) c
          = none := by
        split
        · rw [evalGroups_singleton3, if_neg (by omega)]
        · rfl
      have hLnone : evalGroups L c = none := by
        apply evalGroups_nomatch
        intro x hx
        have := sorted_head_lt hwfC hchainC x hx
        omega
      have hCeval : evalGroups (b :: L) c = evalGroups [b] c := by
        rw [evalGroups_cons, hLnone, Option.or_none]
      have hmain : evalGroups (if b.1 < glyphStartCode then
          [(b.1, glyphStartCode - 1, b.2.2)] else []) c = evalGroups [b] c := by
        by_cases hL : b.1 < glyphStartCode
        · rw [if_pos hL, evalGroups_singleton3, evalGroups_singleton]
          by_cases hbc : b.1 ≤ c
          · rw [if_pos (by omega), if_pos (by omega)]
          · rw [if_neg (by omega), if_neg (by omega)]
        · rw [if_neg hL, evalGroups_nil, evalGroups_singleton,
            if_neg (by omega)]
      simp only [evalGroups_append, hD, hifR, hwin, hCeval, ← hmain,
        Option.or_none]
    · -- above the window: the right remainder behaves exactly like the
      -- last replaced group
      have hA' := hAnone hcge
      have hifL : evalGroups (if b.1 < glyphStartCode then
          [(b.1, glyphStartCode - 1, b.2.2)] else []) c = none := by
        split
        · rw [evalGroups_singleton3, if_neg (by omega)]
        · rfl
      have hCstruct : (b :: L) = (b :: L).dropLast ++ [cl] :=
        (List.dropLast_append_getLast hCne).symm
      have hpw : List.Pairwise (fun a b => a.2.1 < b.1) (b :: L) :=
        wf_sorted_pairwise hwfC hchainC
      have hinit : evalGroups ((b :: L).dropLast) c = none := by
        apply evalGroups_nomatch
        intro x hx
        rw [hCstruct] at hpw
        have := (List.pairwise_append.mp hpw).2.2 x hx cl (by simp)
        omega
      have hCeval : evalGroups (b :: L) c = evalGroups [cl] c := by
        conv_lhs => rw [hCstruct]
        rw [evalGroups_append, hinit, Option.none_or]
      have hmain : evalGroups (if glyphEndCode N < cl.2.1 then
          [(glyphEndCode N + 1, cl.2.1,
            wsub (wadd (wadd cl.2.2 (glyphEndCode N)) 1) cl.1)] else []) c
          = evalGroups [cl] c := by
        by_cases hR : glyphEndCode N < cl.2.1
        · rw [if_pos hR, evalGroups_singleton3, evalGroups_singleton]
          by_cases hcc : c ≤ cl.2.1
          · rw [if_pos (by omega), if_pos (by omega)]
            congr 1
            simp only [wadd, wsub]
            obtain ⟨hv1, hv2, hv3⟩ := hclvals
            omega
          · rw [if_neg (by omega), if_neg (by omega)]
        · rw [if_neg hR, evalGroups_nil, evalGroups_singleton,
            if_neg (by omega)]
      simp only [evalGroups_append, hA', hifL, hwin, hCeval, ← hmain,
        Option.none_or]

/-! ### The degenerate `num_glyphs = 0` remap (C10 core) -/

theorem degenerate_takeWhile_eq : ∀ {l : List Group}, GroupsWF l →
    (∀ x ∈ l, x.2.1 < glyphStartCode ∨ glyphEndCode 0 < x.1) →
    l.takeWhile (fun x => decide (x.1 ≤ glyphEndCode 0))
      = l.takeWhile (fun x => decide (x.2.1 < glyphStartCode))
  | [], _, _ => rfl
  | g :: l, hwf, hno => by
    have hge : glyphEndCode 0 = glyphStartCode - 1 := rfl
    have hWpos : 1 ≤ glyphStartCode := by
      simp only [glyphStartCode]
      omega
    have hgwf := hwf g (by simp)
    rcases hno g (by simp) with hlow | hhigh
    · rw [List.takeWhile_cons, List.takeWhile_cons, if_pos (by simp; omega),
        if_pos (by simpa using hlow)]
      rw [degenerate_takeWhile_eq (fun x hx => hwf x (List.mem_cons_of_mem _ hx))
        (fun x hx => hno x (List.mem_cons_of_mem _ hx))]
    · rw [List.takeWhile_cons, List.takeWhile_cons, if_neg (by simp; omega),
        if_neg (by simp; omega)]

theorem spliceGroups_degenerate (gs : List Group) (hwf : GroupsWF gs)
    (hno : ∀ x ∈ gs, x.2.1 < glyphStartCode ∨ glyphEndCode 0 < x.1) :
    spliceGroups gs 0 =
      gs.take (partitionPoint (fun x => decide (x.2.1 < glyphStartCode)) gs)
        ++ [(glyphStartCode, glyphEndCode 0, 0)]
        ++ gs.drop (partitionPoint (fun x => decide (x.2.1 < glyphStartCode)) gs) := by
  unfold spliceGroups
  simp only
  rw [show partitionPoint (fun g => decide (g.1 ≤ glyphEndCode 0)) gs
      = partitionPoint (fun g => decide (g.2.1 < glyphStartCode)) gs by
    show (gs.takeWhile _).length = (gs.takeWhile _).length
    rw [degenerate_takeWhile_eq hwf hno]]
  rw [if_pos rfl]

/-! ### The orchestrator's record-append step (C5 core) -/

theorem mapGlyphsTableStep_records (t : Table) (N : Nat) (t2 : Table) (k : Nat)
    (hk : position (fun st => st.format == 12) t.subtables = some k)
    (h : mapGlyphsTableStep t N = .ok t2) :
    t2.encoding_records =
      if t.encoding_records.any (fun r => r.platform_id == 0 && r.encoding_id == 4)
      then t.encoding_records
      else t.encoding_records ++ [⟨0, 4, k⟩] := by
  unfold mapGlyphsTableStep chooseTab12 at h
  rw [hk] at h
  simp only [exceptBind_ok] at h
  cases hm : mapGlyphToPua12 (((({ t with
      encoding_records := mapGlyphsRecords t.encoding_records k } : Table)).subtables.getD
        k default).data) N with
  | error e => rw [hm] at h; exact absurd h (by simp)
  | ok d =>
    rw [hm] at h
    simp only [exceptBind_ok, Except.ok.injEq] at h
    rw [← h]
    show mapGlyphsRecords t.encoding_records k = _
    unfold mapGlyphsRecords
    rfl

/-! ### Serialization emits the directory sorted (C9 core) -/

theorem keyLe_trans (a b c : Nat × Nat × Nat)
    (h1 : keyLe a b = true) (h2 : keyLe b c = true) : keyLe a c = true := by
  simp only [keyLe, decide_eq_true_eq] at *
  omega

theorem keyLe_total (a b : Nat × Nat × Nat) : (keyLe a b || keyLe b a) = true := by
  simp only [keyLe, Bool.or_eq_true, decide_eq_true_eq]
  omega

theorem sortedRecords_pairwise (t : Table) :
    (sortedRecords t).Pairwise
      (fun a b => keyLe (recKey t a) (recKey t b) = true) :=
  List.sorted_mergeSort
    (fun a b c => keyLe_trans (recKey t a) (recKey t b) (recKey t c))
    (fun a b => keyLe_total (recKey t a) (recKey t b))
    t.encoding_records

theorem readDirEntries_flat (data : Bytes) (f : EncodingRecord → Nat) :
    ∀ (rs : List EncodingRecord) (pre post : Bytes),
      (∀ r ∈ rs, r.platform_id < 2^16 ∧ r.encoding_id < 2^16) →
      data = pre ++ rs.flatMap (fun r => u16Bytes r.platform_id
        ++ u16Bytes r.encoding_id ++ u32Bytes (f r)) ++ post →
      readDirEntries data rs.length pre.length
        = .ok (rs.map fun r => (r.platform_id, r.encoding_id, f r % 2^32))
  | [], pre, post, _, hdata => by simp [readDirEntries]
  | r :: rs, pre, post, h, hdata => by
    obtain ⟨hp, he⟩ := h r (List.mem_cons_self ..)
    have hshape : data = pre ++ (u16Bytes r.platform_id ++ (u16Bytes r.encoding_id
        ++ (u32Bytes (f r) ++ (rs.flatMap (fun r => u16Bytes r.platform_id
          ++ u16Bytes r.encoding_id ++ u32Bytes (f r)) ++ post)))) := by
      rw [hdata]
      simp [List.append_assoc]
    have e0 : readU16 data pre.length = .ok r.platform_id := by
      rw [hshape, readU16_append_right _ (Nat.le_refl _), Nat.sub_self,
        readU16_u16Bytes, Nat.mod_eq_of_lt hp]
    have e2 : readU16 data (pre.length + 2) = .ok r.encoding_id := by
      rw [hshape, readU16_append_right _ (by omega), Nat.add_sub_cancel_left,
        readU16_append_right _ (by simp), length_u16Bytes]
      rw [show (2:Nat) - 2 = 0 from rfl, readU16_u16Bytes, Nat.mod_eq_of_lt he]
    have e4 : readU32 data (pre.length + 4) = .ok (f r % 2^32) := by
      rw [hshape, readU32_append_right _ (by omega), Nat.add_sub_cancel_left,
        readU32_append_right _ (by simp), length_u16Bytes]
      rw [show (4:Nat) - 2 = 2 from rfl, readU32_append_right _ (by simp),
        length_u16Bytes]
      rw [show (2:Nat) - 2 = 0 from rfl, readU32_u32Bytes]
    have hrest : readDirEntries data rs.length (pre.length + 8)
        = .ok (rs.map fun r => (r.platform_id, r.encoding_id, f r % 2^32)) := by
      have hdata2 : data = (pre ++ (u16Bytes r.platform_id ++ u16Bytes r.encoding_id
          ++ u32Bytes (f r))) ++ rs.flatMap (fun r => u16Bytes r.platform_id
            ++ u16Bytes r.encoding_id ++ u32Bytes (f r)) ++ post := by
        rw [hdata]
        simp [List.append_assoc]
      have hlen : (pre ++ (u16Bytes r.platform_id ++ u16Bytes r.encoding_id
          ++ u32Bytes (f r))).length = pre.length + 8 := by
        simp
      have := readDirEntries_flat data f rs
        (pre ++ (u16Bytes r.platform_id ++ u16Bytes r.encoding_id ++ u32Bytes (f r)))
        post (fun x hx => h x (List.mem_cons_of_mem _ hx)) hdata2
      rwa [hlen] at this
    show readDirEntries data (rs.length + 1) pre.length = _
    unfold readDirEntries
    rw [e0]
    simp only [exceptBind_ok]
    rw [e2]
    simp only [exceptBind_ok]
    rw [e4]
    simp only [exceptBind_ok]
    rw [hrest]
    simp

theorem cmapWrite_decode (t : Table)
    (hrange : ∀ r ∈ t.encoding_records,
      r.platform_id < 2^16 ∧ r.encoding_id < 2^16) :
    readDirEntries (cmapWrite t) t.encoding_records.length 4
      = .ok ((sortedRecords t).map fun r => (r.platform_id, r.encoding_id,
          (subtableOffsets t).getD r.subtable_idx 0 % 2^32)) := by
  have hperm := List.mergeSort_perm t.encoding_records
    (fun a b => keyLe (recKey t a) (recKey t b))
  have hlen : (sortedRecords t).length = t.encoding_records.length :=
    hperm.length_eq
  have hmem : ∀ r ∈ sortedRecords t, r.platform_id < 2^16 ∧ r.encoding_id < 2^16 :=
    fun r hr => hrange r (hperm.mem_iff.mp hr)
  have hdata : cmapWrite t = (u16Bytes t.version ++ u16Bytes t.subtables.length)
      ++ (sortedRecords t).flatMap (fun r => u16Bytes r.platform_id
        ++ u16Bytes r.encoding_id
        ++ u32Bytes ((subtableOffsets t).getD r.subtable_idx 0))
      ++ t.subtables.flatMap (fun st => st.data) := by
    unfold cmapWrite
    simp [List.append_assoc]
  have h4 : (u16Bytes t.version ++ u16Bytes t.subtables.length).length = 4 := by
    simp
  rw [← hlen, show (4:Nat) = (u16Bytes t.version
    ++ u16Bytes t.subtables.length).length from h4.symm]
  exact readDirEntries_flat (cmapWrite t)
    (fun r => (subtableOffsets t).getD r.subtable_idx 0) (sortedRecords t)
    (u16Bytes t.version ++ u16Bytes t.subtables.length)
    (t.subtables.flatMap (fun st => st.data)) hmem hdata

/-! ### Parsing deduplicates by byte-range identity (C8 core) -/

theorem readRecordsLoop_invariant (data : Bytes) :
    ∀ (n : Nat) (recs : List EncodingRecord) (sts : List Subtable)
      (out : List EncodingRecord × List Subtable),
      readRecordsLoop data n (4 + 8 * recs.length) recs sts = .ok out →
      (∀ r ∈ recs, r.subtable_idx < sts.length) →
      List.Pairwise (fun a b => a.src ≠ b.src) sts →
      (∀ i, i < recs.length → ∃ off len,
        entryOffLen data i = .ok (off, len) ∧
        (sts.getD (recs.getD i default).subtable_idx default).src
          = some (off, len)) →
      ((∀ r ∈ out.1, r.subtable_idx < out.2.length) ∧
        List.Pairwise (fun a b => a.src ≠ b.src) out.2 ∧
        (∀ i, i < out.1.length → ∃ off len,
          entryOffLen data i = .ok (off, len) ∧
          (out.2.getD (out.1.getD i default).subtable_idx default).src
            = some (off, len)))
  | 0, recs, sts, out, h, h1, h2, h3 => by
    unfold readRecordsLoop at h
    cases h
    exact ⟨h1, h2, h3⟩
  | n + 1, recs, sts, out, h, h1, h2, h3 => by
    unfold readRecordsLoop at h
    cases hr0 : readU16 data (4 + 8 * recs.length) with
    | error e => rw [hr0] at h; exact absurd h (by simp)
    | ok platform_id =>
    rw [hr0] at h
    simp only [exceptBind_ok] at h
    cases hr2 : readU16 data (4 + 8 * recs.length + 2) with
    | error e => rw [hr2] at h; exact absurd h (by simp)
    | ok encoding_id =>
    rw [hr2] at h
    simp only [exceptBind_ok] at h
    cases hr4 : readU32 data (4 + 8 * recs.length + 4) with
    | error e => rw [hr4] at h; exact absurd h (by simp)
    | ok offset =>
    rw [hr4] at h
    simp only [exceptBind_ok] at h
    cases hh : readSubtableHeader data offset with
    | error e => rw [hh] at h; exact absurd h (by simp)
    | ok fll =>
    obtain ⟨format, length, language⟩ := fll
    rw [hh] at h
    simp only [exceptBind_ok] at h
    cases hsl : sliceP data offset (offset + length) with
    | error e => rw [hsl] at h; exact absurd h (by simp)
    | ok subtable_data =>
    rw [hsl] at h
    simp only [exceptBind_ok] at h
    have hentry : entryOffLen data recs.length = .ok (offset, length) := by
      unfold entryOffLen
      rw [hr4]
      simp only [exceptBind_ok]
      rw [hh]
      simp only [exceptBind_ok]
    cases hpos : position (fun st => st.src == some (offset, length)) sts with
    | some idx =>
      rw [hpos] at h
      obtain ⟨st, hst, hpred⟩ := position_eq_some hpos
      have hidxlt : idx < sts.length := by
        obtain ⟨hlt, -⟩ := List.getElem?_eq_some_iff.mp hst
        exact hlt
      have hsrc : st.src = some (offset, length) := by
        simpa using hpred
      have harg : 4 + 8 * recs.length + 8
          = 4 + 8 * (recs ++ [(⟨platform_id, encoding_id, idx⟩ : EncodingRecord)]).length := by
        simp
        omega
      rw [harg] at h
      refine readRecordsLoop_invariant data n _ sts out h ?_ h2 ?_
      · intro r hr
        rcases List.mem_append.mp hr with hr' | hr'
        · exact h1 r hr'
        · rcases List.mem_singleton.mp hr' with rfl
          exact hidxlt
      · intro i hilt
        simp only [List.length_append, List.length_singleton] at hilt
        by_cases hi : i < recs.length
        · obtain ⟨off, len, he, hs⟩ := h3 i hi
          refine ⟨off, len, he, ?_⟩
          have hget : (recs ++ [(⟨platform_id, encoding_id, idx⟩ : EncodingRecord)]).getD
              i default = recs.getD i default := by
            simp [List.getD, List.getElem?_append_left hi]
          rw [hget]
          exact hs
        · have hieq : i = recs.length := by omega
          subst hieq
          refine ⟨offset, length, hentry, ?_⟩
          have hget : (recs ++ [(⟨platform_id, encoding_id, idx⟩ : EncodingRecord)]).getD
              recs.length default = ⟨platform_id, encoding_id, idx⟩ := by
            simp [List.getD, List.getElem?_append_right (Nat.le_refl recs.length)]
          rw [hget]
          show (sts.getD idx default).src = some (offset, length)
          obtain ⟨h', heq⟩ := List.getElem?_eq_some_iff.mp hst
          rw [List.getD_eq_getElem _ _ hidxlt, heq, hsrc]
    | none =>
      rw [hpos] at h
      have hfresh := position_eq_none hpos
      have harg : 4 + 8 * recs.length + 8
          = 4 + 8 * (recs ++ [(⟨platform_id, encoding_id, sts.length⟩ : EncodingRecord)]).length := by
        simp
        omega
      rw [harg] at h
      refine readRecordsLoop_invariant data n _ _ out h ?_ ?_ ?_
      · intro r hr
        rcases List.mem_append.mp hr with hr' | hr'
        · have := h1 r hr'
          simp
          omega
        · rcases List.mem_singleton.mp hr' with rfl
          simp
      · refine List.pairwise_append.mpr ⟨h2, by simp, ?_⟩
        intro a ha b hb
        rcases List.mem_singleton.mp hb with rfl
        have := hfresh a ha
        simp only [beq_eq_false_iff_ne, ne_eq] at this
        simpa using this
      · intro i hilt
        simp only [List.length_append, List.length_singleton] at hilt
        by_cases hi : i < recs.length
        · obtain ⟨off, len, he, hs⟩ := h3 i hi
          refine ⟨off, len, he, ?_⟩
          have hget : (recs ++ [(⟨platform_id, encoding_id, sts.length⟩ : EncodingRecord)]).getD
              i default = recs.getD i default := by
            simp [List.getD, List.getElem?_append_left hi]
          rw [hget]
          have hidxlt2 : (recs.getD i default).subtable_idx < sts.length := by
            apply h1
            rw [List.getD_eq_getElem _ _ hi]
            exact List.getElem_mem hi
          have hlt3 : (recs.getD i default).subtable_idx
              < (sts ++ [(⟨format, language, some (offset, length),
                  subtable_data⟩ : Subtable)]).length := by
            simp only [List.length_append, List.length_singleton]
            omega
          rw [List.getD_eq_getElem _ _ hlt3, List.getElem_append_left hidxlt2,
            ← List.getD_eq_getElem sts default hidxlt2]
          exact hs
        · have hieq : i = recs.length := by omega
          subst hieq
          refine ⟨offset, length, hentry, ?_⟩
          have hget : (recs ++ [(⟨platform_id, encoding_id, sts.length⟩ : EncodingRecord)]).getD
              recs.length default = ⟨platform_id, encoding_id, sts.length⟩ := by
            simp [List.getD, List.getElem?_append_right (Nat.le_refl recs.length)]
          rw [hget]
          show ((sts ++ [_]).getD sts.length default).src = some (offset, length)
          have hlast : (sts ++ [(⟨format, language, some (offset, length),
              subtable_data⟩ : Subtable)]).getD sts.length default
              = ⟨format, language, some (offset, length), subtable_data⟩ := by
            simp [List.getD, List.getElem?_append_right (Nat.le_refl sts.length)]
          rw [hlast]

theorem cmapRead_ok_elim {data : Bytes} {t : Table} (h : cmapRead data = .ok t) :
    ∃ n, readU16 data 2 = .ok n ∧
      readRecordsLoop data n 4 [] []
        = .ok (t.encoding_records, t.subtables) := by
  unfold cmapRead at h
  cases h0 : readU16 data 0 with
  | error e => rw [h0] at h; exact absurd h (by simp)
  | ok version =>
  rw [h0] at h
  simp only [exceptBind_ok] at h
  cases h2 : readU16 data 2 with
  | error e => rw [h2] at h; exact absurd h (by simp)
  | ok n =>
  rw [h2] at h
  simp only [exceptBind_ok] at h
  cases hl : readRecordsLoop data n 4 [] [] with
  | error e => rw [hl] at h; exact absurd h (by simp)
  | ok p =>
    obtain ⟨recs, sts⟩ := p
    rw [hl] at h
    simp only [exceptBind_ok, Except.ok.injEq] at h
    refine ⟨n, rfl, ?_⟩
    rw [hl, ← h]

theorem cmapRead_dedup_core (data : Bytes) (t : Table)
    (h : cmapRead data = .ok t)
    (i j : Nat) (hi : i < t.encoding_records.length)
    (hj : j < t.encoding_records.length) :
    (t.encoding_records.getD i default).subtable_idx
        = (t.encoding_records.getD j default).subtable_idx
      ↔ entryOffLen data i = entryOffLen data j := by
  obtain ⟨n, -, hloop⟩ := cmapRead_ok_elim h
  have hinv := readRecordsLoop_invariant data n [] []
    (t.encoding_records, t.subtables) (by simpa using hloop)
    (by simp) (by simp) (by simp)
  obtain ⟨hvalid, hdistinct, hidx⟩ := hinv
  obtain ⟨oi, li, hei, hsi⟩ := hidx i hi
  obtain ⟨oj, lj, hej, hsj⟩ := hidx j hj
  have hmemi : t.encoding_records.getD i default ∈ t.encoding_records := by
    rw [List.getD_eq_getElem _ _ hi]
    exact List.getElem_mem hi
  have hmemj : t.encoding_records.getD j default ∈ t.encoding_records := by
    rw [List.getD_eq_getElem _ _ hj]
    exact List.getElem_mem hj
  constructor
  · intro heq
    rw [heq] at hsi
    rw [hei, hej]
    have hpair := hsi.symm.trans hsj
    simp only [Option.some.injEq, Prod.mk.injEq] at hpair
    rw [hpair.1, hpair.2]
  · intro heq
    rw [hei, hej] at heq
    simp only [Except.ok.injEq, Prod.mk.injEq] at heq
    obtain ⟨rfl, rfl⟩ := heq
    by_contra hne
    have hvi : (t.encoding_records.getD i default).subtable_idx
        < t.subtables.length := hvalid _ hmemi
    have hvj : (t.encoding_records.getD j default).subtable_idx
        < t.subtables.length := hvalid _ hmemj
    rw [List.getD_eq_getElem _ _ hvi] at hsi
    rw [List.getD_eq_getElem _ _ hvj] at hsj
    have hpw := List.pairwise_iff_getElem.mp hdistinct
    rcases Nat.lt_or_ge (t.encoding_records.getD i default).subtable_idx
      (t.encoding_records.getD j default).subtable_idx with hlt | hge
    · exact hpw _ _ hvi hvj hlt (hsi.trans hsj.symm)
    · have hlt2 : (t.encoding_records.getD j default).subtable_idx
          < (t.encoding_records.getD i default).subtable_idx := by omega
      exact hpw _ _ hvj hvi hlt2 (hsj.trans hsi.symm)

/-! ### Format-4 to format-12 conversion (C3 core) -/

theorem readU16_total {d : Bytes} {o : Nat} (h : o + 2 ≤ d.length) :
    ∃ v, readU16 d o = .ok v := by
  unfold readU16
  rw [List.getElem?_eq_getElem (by omega), List.getElem?_eq_getElem (by omega)]
  exact ⟨_, rfl⟩

theorem readU16_slice {d : Bytes} {a n o : Nat}
    (h : o + 2 ≤ n) :
    readU16 ((d.drop a).take n) o = readU16 d (a + o) := by
  unfold readU16
  rw [List.getElem?_take, if_pos (by omega), List.getElem?_take,
    if_pos (by omega), List.getElem?_drop, List.getElem?_drop]
  rw [show a + (o + 1) = a + o + 1 from by omega]

theorem sliceP_ok {d : Bytes} {lo hi : Nat} {s : Bytes}
    (h : sliceP d lo hi = .ok s) :
    s = (d.drop lo).take (hi - lo) ∧ lo ≤ hi ∧ hi ≤ d.length := by
  unfold sliceP at h
  split at h
  · cases h
    exact ⟨rfl, by omega, by omega⟩
  · exact absurd h (by simp)

theorem sliceFrom_ok {d : Bytes} {lo : Nat} {s : Bytes}
    (h : sliceFrom d lo = .ok s) : s = d.drop lo ∧ lo ≤ d.length := by
  unfold sliceFrom at h
  split at h
  · cases h
    exact ⟨rfl, by omega⟩
  · exact absurd h (by simp)

theorem position_eq_some_first {p : α → Bool} :
    ∀ {l : List α} {i : Nat}, position p l = some i →
      ∀ k, k < i → ∀ x, l[k]? = some x → p x = false
  | [], i, h => by simp [position] at h
  | y :: l, i, h => by
    by_cases hp : p y
    · simp [position, hp] at h
      subst h
      intro k hk
      omega
    · simp [position, hp] at h
      obtain ⟨j, hj, rfl⟩ := h
      intro k hk x hx
      cases k with
      | zero =>
        simp at hx
        rw [← hx]
        simpa using hp
      | succ k' =>
        simp only [List.getElem?_cons_succ] at hx
        exact position_eq_some_first hj k' (by omega) x hx

/-- In a well-formed sorted list of segment ranges, the head's end is
below every later range's start. -/
theorem pair_sorted_head_lt : ∀ {p : Nat × Nat} {l : List (Nat × Nat)},
    (∀ x ∈ p :: l, x.1 ≤ x.2) →
    List.Chain' (fun a b => a.2 < b.1) (p :: l) → ∀ b ∈ l, p.2 < b.1
  | _, [], _, _, b, hb => absurd hb (by simp)
  | p, q :: t, hwf, hs, b, hb => by
    have hpq : p.2 < q.1 := (List.chain'_cons.mp hs).1
    rcases List.mem_cons.mp hb with rfl | hb'
    · exact hpq
    · have h1 := pair_sorted_head_lt
        (fun x hx => hwf x (List.mem_cons_of_mem _ hx))
        (List.chain'_cons.mp hs).2 b hb'
      have h2 := hwf q (by simp)
      omega

theorem pair_wf_sorted_pairwise : ∀ {l : List (Nat × Nat)},
    (∀ x ∈ l, x.1 ≤ x.2) → List.Chain' (fun a b => a.2 < b.1) l →
    l.Pairwise (fun a b => a.2 < b.1)
  | [], _, _ => List.Pairwise.nil
  | p :: l, hwf, hs => by
    refine List.pairwise_cons.mpr ⟨pair_sorted_head_lt hwf hs, ?_⟩
    exact pair_wf_sorted_pairwise (fun x hx => hwf x (List.mem_cons_of_mem _ hx))
      (List.chain'_cons'.mp hs).2

theorem indirectSeg_spec (data : Bytes) (hB : BytesOk data) (pos0 s : Nat) :
    ∀ (m c0 : Nat) (pending : Option Group) (res : List Group),
      indirectSeg data pos0 s (List.range' c0 m) pending = .ok res →
      (match pending with
        | none => True
        | some (rs, re, rg) => rs ≤ re ∧ re + 1 = c0 ∧ rg < 2^16 ∧
            (∀ x, rs ≤ x → x ≤ re →
              readU16 data (pos0 + (x - s) * 2) = .ok (rg + (x - rs)))) →
      (res.length ≤ m + 1 ∧
        (∀ g ∈ res,
          (match pending with | none => c0 | some (rs, _, _) => rs) ≤ g.1 ∧
          g.1 ≤ g.2.1 ∧ g.2.1 ≤ c0 + m - 1 ∧ g.2.2 < 2^16) ∧
        (∀ c, (match pending with | none => c0 | some (rs, _, _) => rs) ≤ c →
          c < c0 + m →
          ∃ gv, readU16 data (pos0 + (c - s) * 2) = .ok gv ∧ gv < 2^16 ∧
            evalGroups res c = some gv))
  | 0, c0, pending, res, h, hinv => by
    cases pending with
    | none =>
      simp only [List.range', indirectSeg] at h
      cases h
      refine ⟨by simp, by simp, ?_⟩
      intro c hc1 hc2
      simp only [] at hc1
      omega
    | some p =>
      obtain ⟨rs, re, rg⟩ := p
      obtain ⟨hrsre, hre1, hrg, hglyph⟩ := hinv
      simp only [List.range', indirectSeg] at h
      cases h
      refine ⟨by simp, ?_, ?_⟩
      · intro g hg
        rw [List.mem_singleton.mp hg]
        refine ⟨?_, ?_, ?_, ?_⟩ <;> simp only [] <;> omega
      · intro c hc1 hc2
        simp only [] at hc1
        have hcre : c ≤ re := by omega
        have hread := hglyph c hc1 hcre
        refine ⟨rg + (c - rs), hread, readU16_lt hB hread, ?_⟩
        rw [evalGroups_singleton3, if_pos (by omega)]
        have : rg + (c - rs) < 2^16 := readU16_lt hB hread
        simp only [Option.some.injEq]
        omega
  | m + 1, c0, pending, res, h, hinv => by
    rw [List.range'_succ] at h
    unfold indirectSeg at h
    cases hg0 : readU16 data (pos0 + (c0 - s) * 2) with
    | error e => rw [hg0] at h; exact absurd h (by simp)
    | ok glyph_id =>
    rw [hg0] at h
    simp only [exceptBind_ok] at h
    have hgid : glyph_id < 2^16 := readU16_lt hB hg0
    cases pending with
    | none =>
      -- start a fresh run at c0
      have hinv2 : (match (some (c0, c0, glyph_id) : Option Group) with
          | none => True
          | some (rs, re, rg) => rs ≤ re ∧ re + 1 = c0 + 1 ∧ rg < 2^16 ∧
              (∀ x, rs ≤ x → x ≤ re →
                readU16 data (pos0 + (x - s) * 2) = .ok (rg + (x - rs)))) := by
        refine ⟨Nat.le_refl _, rfl, hgid, ?_⟩
        intro x hx1 hx2
        have hxc : x = c0 := by omega
        subst hxc
        simpa using hg0
      obtain ⟨hlen, hbnd, heval⟩ :=
        indirectSeg_spec data hB pos0 s m (c0 + 1) (some (c0, c0, glyph_id)) res h hinv2
      refine ⟨by omega, ?_, ?_⟩
      · intro g hg
        have := hbnd g hg
        refine ⟨this.1, this.2.1, by omega, this.2.2.2⟩
      · intro c hc1 hc2
        exact heval c hc1 (by omega)
    | some p =>
      obtain ⟨rs, re, rg⟩ := p
      obtain ⟨hrsre, hre1, hrg, hglyph⟩ := hinv
      simp only [] at h
      by_cases hmerge : c0 + rg = rs + glyph_id
      · rw [if_pos hmerge] at h
        have hinv2 : (match (some (rs, c0, rg) : Option Group) with
            | none => True
            | some (rs2, re2, rg2) => rs2 ≤ re2 ∧ re2 + 1 = c0 + 1 ∧ rg2 < 2^16 ∧
                (∀ x, rs2 ≤ x → x ≤ re2 →
                  readU16 data (pos0 + (x - s) * 2) = .ok (rg2 + (x - rs2)))) := by
          refine ⟨by omega, rfl, hrg, ?_⟩
          intro x hx1 hx2
          by_cases hxr : x ≤ re
          · exact hglyph x hx1 hxr
          · have hxc : x = c0 := by omega
            subst hxc
            rw [hg0]
            congr 1
            omega
        obtain ⟨hlen, hbnd, heval⟩ :=
          indirectSeg_spec data hB pos0 s m (c0 + 1) (some (rs, c0, rg)) res h hinv2
        refine ⟨by omega, ?_, ?_⟩
        · intro g hg
          have := hbnd g hg
          refine ⟨this.1, this.2.1, by omega, this.2.2.2⟩
        · intro c hc1 hc2
          exact heval c hc1 (by omega)
      · rw [if_neg hmerge] at h
        cases hm : indirectSeg data pos0 s (List.range' (c0 + 1) m)
            (some (c0, c0, glyph_id)) with
        | error e => rw [hm] at h; exact absurd h (by simp)
        | ok more =>
        rw [hm] at h
        simp only [exceptBind_ok, Except.ok.injEq] at h
        subst h
        have hinv2 : (match (some (c0, c0, glyph_id) : Option Group) with
            | none => True
            | some (rs2, re2, rg2) => rs2 ≤ re2 ∧ re2 + 1 = c0 + 1 ∧ rg2 < 2^16 ∧
                (∀ x, rs2 ≤ x → x ≤ re2 →
                  readU16 data (pos0 + (x - s) * 2) = .ok (rg2 + (x - rs2)))) := by
          refine ⟨Nat.le_refl _, rfl, hgid, ?_⟩
          intro x hx1 hx2
          have hxc : x = c0 := by omega
          subst hxc
          simpa using hg0
        obtain ⟨hlen, hbnd, heval⟩ :=
          indirectSeg_spec data hB pos0 s m (c0 + 1) (some (c0, c0, glyph_id)) more hm hinv2
        refine ⟨by simpa using (by omega : more.length + 1 ≤ m + 1 + 1), ?_, ?_⟩
        · intro g hg
          rcases List.mem_cons.mp hg with rfl | hg'
          · refine ⟨?_, ?_, ?_, ?_⟩ <;> simp only [] <;> omega
          · obtain ⟨hb1, hb2, hb3, hb4⟩ := hbnd g hg'
            simp only [] at hb1 ⊢
            exact ⟨by omega, hb2, by omega, hb4⟩
        · intro c hc1 hc2
          simp only [] at hc1
          by_cases hcre : c ≤ re
          · have hread := hglyph c hc1 hcre
            refine ⟨rg + (c - rs), hread, readU16_lt hB hread, ?_⟩
            rw [evalGroups_cons, evalGroups_singleton3, if_pos (by omega)]
            have : rg + (c - rs) < 2^16 := readU16_lt hB hread
            rw [show (rg + (c - rs)) % 2^32 = rg + (c - rs) from by omega]
            simp
          · obtain ⟨gv, hread, hlt, hev⟩ :=
              heval c (by simp only []; omega) (by omega)
            refine ⟨gv, hread, hlt, ?_⟩
            rw [evalGroups_cons, evalGroups_singleton3, if_neg (by omega),
              Option.none_or]
            exact hev

theorem exceptPure {ε α : Type} (v : α) : (pure v : Except ε α) = Except.ok v := rfl

theorem convert4Arrays_ok {data : Bytes} {scx2 : Nat} {ec sc idl iro : Bytes}
    (h : convert4Arrays data = .ok (scx2, ec, sc, idl, iro)) :
    readU16 data 6 = .ok scx2 ∧
    ec = (data.drop 14).take scx2 ∧
    sc = (data.drop (16 + scx2)).take scx2 ∧
    idl = (data.drop (16 + 2 * scx2)).take scx2 ∧
    iro = (data.drop (16 + 3 * scx2)).take scx2 ∧
    16 + 4 * scx2 ≤ data.length := by
  unfold convert4Arrays at h
  cases h6 : readU16 data 6 with
  | error e => rw [h6] at h; exact absurd h (by simp)
  | ok v =>
  rw [h6] at h
  simp only [exceptBind_ok] at h
  cases h8 : readU16 data 8 with
  | error e => rw [h8] at h; exact absurd h (by simp)
  | ok sr =>
  rw [h8] at h
  simp only [exceptBind_ok] at h
  cases h10 : readU16 data 10 with
  | error e => rw [h10] at h; exact absurd h (by simp)
  | ok es =>
  rw [h10] at h
  simp only [exceptBind_ok] at h
  cases h12 : readU16 data 12 with
  | error e => rw [h12] at h; exact absurd h (by simp)
  | ok rsh =>
  rw [h12] at h
  simp only [exceptBind_ok] at h
  cases hec : sliceP data 14 (14 + v) with
  | error e => rw [hec] at h; exact absurd h (by simp)
  | ok ecv =>
  rw [hec] at h
  simp only [exceptBind_ok] at h
  cases hrp : readU16 data (14 + v) with
  | error e => rw [hrp] at h; exact absurd h (by simp)
  | ok rp =>
  rw [hrp] at h
  simp only [exceptBind_ok] at h
  cases hsc : sliceP data (16 + v) (16 + 2 * v) with
  | error e => rw [hsc] at h; exact absurd h (by simp)
  | ok scv =>
  rw [hsc] at h
  simp only [exceptBind_ok] at h
  cases hidl : sliceP data (16 + 2 * v) (16 + 3 * v) with
  | error e => rw [hidl] at h; exact absurd h (by simp)
  | ok idlv =>
  rw [hidl] at h
  simp only [exceptBind_ok] at h
  cases hiro : sliceP data (16 + 3 * v) (16 + 4 * v) with
  | error e => rw [hiro] at h; exact absurd h (by simp)
  | ok irov =>
  rw [hiro] at h
  simp only [exceptBind_ok] at h
  cases hgia : sliceFrom data (16 + 4 * v) with
  | error e => rw [hgia] at h; exact absurd h (by simp)
  | ok gia =>
  rw [hgia] at h
  simp only [exceptBind_ok, Except.ok.injEq, Prod.mk.injEq] at h
  obtain ⟨rfl, rfl, rfl, rfl, rfl⟩ := h
  obtain ⟨hec1, -, -⟩ := sliceP_ok hec
  obtain ⟨hsc1, -, -⟩ := sliceP_ok hsc
  obtain ⟨hidl1, -, -⟩ := sliceP_ok hidl
  obtain ⟨hiro1, -, -⟩ := sliceP_ok hiro
  obtain ⟨-, hlen⟩ := sliceFrom_ok hgia
  refine ⟨rfl, ?_, ?_, ?_, ?_, hlen⟩
  · rw [hec1]
    congr 1
    omega
  · rw [hsc1]
    congr 1
    omega
  · rw [hidl1]
    congr 1
    omega
  · rw [hiro1]
    congr 1
    omega

theorem readSegBounds_spec (data : Bytes) (scx2 : Nat) :
    ∀ (fuel i : Nat) (bs : List (Nat × Nat)),
      readSegBounds data scx2 i fuel = .ok bs →
      bs.length = fuel ∧ ∀ k, k < fuel →
        ∃ s e, readU16 data (16 + scx2 + 2 * (i + k)) = .ok s ∧
          readU16 data (14 + 2 * (i + k)) = .ok e ∧ bs[k]? = some (s, e)
  | 0, i, bs, h => by
    unfold readSegBounds at h
    cases h
    exact ⟨rfl, fun k hk => absurd hk (by omega)⟩
  | fuel + 1, i, bs, h => by
    unfold readSegBounds at h
    cases he : readU16 data (14 + 2 * i) with
    | error e => rw [he] at h; exact absurd h (by simp)
    | ok e =>
    rw [he] at h
    simp only [exceptBind_ok] at h
    cases hs : readU16 data (16 + scx2 + 2 * i) with
    | error e => rw [hs] at h; exact absurd h (by simp)
    | ok s =>
    rw [hs] at h
    simp only [exceptBind_ok] at h
    cases hrest : readSegBounds data scx2 (i + 1) fuel with
    | error e => rw [hrest] at h; exact absurd h (by simp)
    | ok rest =>
    rw [hrest] at h
    simp only [exceptBind_ok, Except.ok.injEq] at h
    subst h
    obtain ⟨hl, hk⟩ := readSegBounds_spec data scx2 fuel (i + 1) rest hrest
    refine ⟨by simp [hl], ?_⟩
    intro k hklt
    cases k with
    | zero =>
      refine ⟨s, e, ?_, ?_, by simp⟩
      · rw [show i + 0 = i from by omega]
        exact hs
      · rw [show i + 0 = i from by omega]
        exact he
    | succ k' =>
      obtain ⟨s', e', hs', he', hg⟩ := hk k' (by omega)
      refine ⟨s', e', ?_, ?_, ?_⟩
      · rw [show i + (k' + 1) = i + 1 + k' from by omega]
        exact hs'
      · rw [show i + (k' + 1) = i + 1 + k' from by omega]
        exact he'
      · simpa using hg

/-- The segment loop of the converter, against the reference semantics:
for segments `i, …, i+fuel-1` of a format-4 subtable (arrays sliced as
`convert4Arrays` produces them), the emitted groups stay within their
segments' ranges and have `u16`-sized components, at most `65537` groups
arise per segment, and at a codepoint contained in exactly one remaining
segment the group list evaluates to the format-4 glyph id modulo `2^16`. -/
theorem segLoop_spec (data : Bytes) (hB : BytesOk data) (scx2 : Nat)
    (hlen : 16 + 4 * scx2 ≤ data.length) :
    ∀ (fuel i : Nat) (res : List Group),
      2 * (i + fuel) ≤ scx2 →
      segLoop data (16 + 3 * scx2) ((data.drop 14).take scx2)
        ((data.drop (16 + scx2)).take scx2)
        ((data.drop (16 + 2 * scx2)).take scx2)
        ((data.drop (16 + 3 * scx2)).take scx2) i fuel = .ok res →
      (res.length ≤ 65537 * fuel ∧
        (∀ g ∈ res, ∃ j s e, i ≤ j ∧ j < i + fuel ∧
          readU16 data (16 + scx2 + 2 * j) = .ok s ∧
          readU16 data (14 + 2 * j) = .ok e ∧
          s ≤ g.1 ∧ g.2.1 ≤ e ∧ g.1 < 2^16 ∧ g.2.1 < 2^16 ∧ g.2.2 < 2^16) ∧
        (∀ j c, i ≤ j → j < i + fuel →
          SegContains data scx2 j c →
          (∀ k, i ≤ k → k < i + fuel → k ≠ j → ¬ SegContains data scx2 k c) →
          ∃ v gv, evalGroups res c = some v ∧
            format4SegEval data scx2 j c = .ok gv ∧ v % 2^16 = gv))
  | 0, i, res, hfit, h => by
    unfold segLoop at h
    cases h
    exact ⟨by simp, by simp, fun j c h1 h2 _ _ => absurd h2 (by omega)⟩
  | fuel + 1, i, res, hfit, h => by
    unfold segLoop at h
    have hs2 : i * 2 + 2 ≤ scx2 := by omega
    have hsb : readU16 ((data.drop (16 + scx2)).take scx2) (i * 2)
        = readU16 data (16 + scx2 + 2 * i) := by
      rw [readU16_slice hs2, show 16 + scx2 + i * 2 = 16 + scx2 + 2 * i from by omega]
    have heb : readU16 ((data.drop 14).take scx2) (i * 2)
        = readU16 data (14 + 2 * i) := by
      rw [readU16_slice hs2, show 14 + i * 2 = 14 + 2 * i from by omega]
    have hib : readU16 ((data.drop (16 + 3 * scx2)).take scx2) (i * 2)
        = readU16 data (16 + 3 * scx2 + 2 * i) := by
      rw [readU16_slice hs2,
        show 16 + 3 * scx2 + i * 2 = 16 + 3 * scx2 + 2 * i from by omega]
    have hdb : readU16 ((data.drop (16 + 2 * scx2)).take scx2) (i * 2)
        = readU16 data (16 + 2 * scx2 + 2 * i) := by
      rw [readU16_slice hs2,
        show 16 + 2 * scx2 + i * 2 = 16 + 2 * scx2 + 2 * i from by omega]
    obtain ⟨s, hs⟩ := @readU16_total data (16 + scx2 + 2 * i) (by omega)
    obtain ⟨e, he⟩ := @readU16_total data (14 + 2 * i) (by omega)
    obtain ⟨iro, hiro⟩ := @readU16_total data (16 + 3 * scx2 + 2 * i) (by omega)
    obtain ⟨delta, hdelta⟩ := @readU16_total data (16 + 2 * scx2 + 2 * i) (by omega)
    rw [hsb, hs] at h
    simp only [exceptBind_ok] at h
    rw [heb, he] at h
    simp only [exceptBind_ok] at h
    rw [hib, hiro] at h
    simp only [exceptBind_ok] at h
    have hslt : s < 2^16 := readU16_lt hB hs
    have helt : e < 2^16 := readU16_lt hB he
    have hdlt : delta < 2^16 := readU16_lt hB hdelta
    by_cases hiro0 : iro = 0
    · -- constant-delta segment: one group
      rw [if_pos hiro0] at h
      rw [hdb, hdelta] at h
      simp only [exceptBind_ok, exceptPure] at h
      cases hrest : segLoop data (16 + 3 * scx2) ((data.drop 14).take scx2)
          ((data.drop (16 + scx2)).take scx2)
          ((data.drop (16 + 2 * scx2)).take scx2)
          ((data.drop (16 + 3 * scx2)).take scx2) (i + 1) fuel with
      | error err => rw [hrest] at h; exact absurd h (by simp)
      | ok rest =>
      rw [hrest] at h
      simp only [exceptBind_ok, Except.ok.injEq] at h
      subst h
      obtain ⟨ihlen, ihmem, iheval⟩ :=
        segLoop_spec data hB scx2 hlen fuel (i + 1) rest (by omega) hrest
      refine ⟨?_, ?_, ?_⟩
      · simp only [List.length_append, List.length_singleton]
        omega
      · intro g hg
        rcases List.mem_append.mp hg with hg' | hg'
        · rcases List.mem_singleton.mp hg' with rfl
          refine ⟨i, s, e, Nat.le_refl _, by omega, hs, he, ?_, ?_, ?_, ?_, ?_⟩
            <;> simp only [] <;> omega
        · obtain ⟨j, s', e', hj1, hj2, h3, h4, h5, h6, h7, h8, h9⟩ := ihmem g hg'
          exact ⟨j, s', e', by omega, by omega, h3, h4, h5, h6, h7, h8, h9⟩
      · intro j c hj1 hj2 hcont hdisj
        by_cases hji : j = i
        · subst hji
          obtain ⟨s', e', hs', he', hsc, hce⟩ := hcont
          have hss : s = s' := by
            injection hs.symm.trans hs'
          have hee : e = e' := by
            injection he.symm.trans he'
          subst hss
          subst hee
          have hclt : c < 2^16 := by omega
          refine ⟨((delta + s) % 2^16 + (c - s)) % 2^32, (c + delta) % 2^16, ?_, ?_, ?_⟩
          · rw [evalGroups_append, evalGroups_singleton3, if_pos (by omega)]
            rfl
          · unfold format4SegEval
            rw [hs]
            simp only [exceptBind_ok]
            rw [hdelta]
            simp only [exceptBind_ok]
            rw [hiro]
            simp only [exceptBind_ok]
            rw [if_pos hiro0, exceptPure]
          · omega
        · have hni : ¬ SegContains data scx2 i c :=
            hdisj i (Nat.le_refl _) (by omega) (fun hh => hji hh.symm)
          have hnot : ¬(s ≤ c ∧ c ≤ e) := fun hh =>
            hni ⟨s, e, hs, he, hh.1, hh.2⟩
          obtain ⟨v, gv, hev, hf, hv⟩ := iheval j c (by omega) (by omega) hcont
            (fun k hk1 hk2 hkj => hdisj k (by omega) (by omega) hkj)
          refine ⟨v, gv, ?_, hf, hv⟩
          rw [evalGroups_append, evalGroups_singleton3, if_neg hnot,
            Option.none_or]
          exact hev
    · -- indirect segment: expand the glyph-index run
      rw [if_neg hiro0] at h
      cases hind : indirectSeg data (16 + 3 * scx2 + i * 2 + iro) s
          (List.range' s (e + 1 - s)) none with
      | error err => rw [hind] at h; exact absurd h (by simp)
      | ok gsi =>
      rw [hind] at h
      simp only [exceptBind_ok] at h
      cases hrest : segLoop data (16 + 3 * scx2) ((data.drop 14).take scx2)
          ((data.drop (16 + scx2)).take scx2)
          ((data.drop (16 + 2 * scx2)).take scx2)
          ((data.drop (16 + 3 * scx2)).take scx2) (i + 1) fuel with
      | error err => rw [hrest] at h; exact absurd h (by simp)
      | ok rest =>
      rw [hrest] at h
      simp only [exceptBind_ok, Except.ok.injEq] at h
      subst h
      obtain ⟨ihlen, ihmem, iheval⟩ :=
        segLoop_spec data hB scx2 hlen fuel (i + 1) rest (by omega) hrest
      obtain ⟨hslen, hsbnd, hseval⟩ :=
        indirectSeg_spec data hB (16 + 3 * scx2 + i * 2 + iro) s (e + 1 - s) s
          none gsi hind trivial
      have hgsie : ∀ g ∈ gsi, s ≤ g.1 ∧ g.1 ≤ g.2.1 ∧ g.2.1 ≤ e ∧ g.2.2 < 2^16 := by
        by_cases hse : s ≤ e
        · intro g hg
          obtain ⟨h1, h2, h3, h4⟩ := hsbnd g hg
          simp only [] at h1
          exact ⟨h1, h2, by omega, h4⟩
        · rw [show e + 1 - s = 0 from by omega, List.range'_zero] at hind
          simp only [indirectSeg, Except.ok.injEq] at hind
          intro g hg
          rw [← hind] at hg
          exact absurd hg (by simp)
      refine ⟨?_, ?_, ?_⟩
      · simp only [List.length_append]
        omega
      · intro g hg
        rcases List.mem_append.mp hg with hg' | hg'
        · obtain ⟨h1, h2, h3, h4⟩ := hgsie g hg'
          exact ⟨i, s, e, Nat.le_refl _, by omega, hs, he, h1, h3, by omega,
            by omega, h4⟩
        · obtain ⟨j, s', e', hj1, hj2, h3, h4, h5, h6, h7, h8, h9⟩ := ihmem g hg'
          exact ⟨j, s', e', by omega, by omega, h3, h4, h5, h6, h7, h8, h9⟩
      · intro j c hj1 hj2 hcont hdisj
        by_cases hji : j = i
        · subst hji
          obtain ⟨s', e', hs', he', hsc, hce⟩ := hcont
          have hss : s = s' := by
            injection hs.symm.trans hs'
          have hee : e = e' := by
            injection he.symm.trans he'
          subst hss
          subst hee
          obtain ⟨gv', hread, hglt, hev⟩ :=
            hseval c (by simp only []; omega) (by omega)
          refine ⟨gv', gv', ?_, ?_, by omega⟩
          · rw [evalGroups_append, hev, Option.or_some]
          · unfold format4SegEval
            rw [hs]
            simp only [exceptBind_ok]
            rw [hdelta]
            simp only [exceptBind_ok]
            rw [hiro]
            simp only [exceptBind_ok]
            rw [if_neg hiro0,
              show 16 + 3 * scx2 + 2 * j + iro + (c - s) * 2
                = 16 + 3 * scx2 + j * 2 + iro + (c - s) * 2 from by omega]
            exact hread
        · have hni : ¬ SegContains data scx2 i c :=
            hdisj i (Nat.le_refl _) (by omega) (fun hh => hji hh.symm)
          have hnot : ¬(s ≤ c ∧ c ≤ e) := fun hh =>
            hni ⟨s, e, hs, he, hh.1, hh.2⟩
          have hnone : evalGroups gsi c = none := by
            apply evalGroups_nomatch
            intro g hg hh
            obtain ⟨h1, h2, h3, h4⟩ := hgsie g hg
            exact hnot ⟨by omega, by omega⟩
          obtain ⟨v, gv, hev, hf, hv⟩ := iheval j c (by omega) (by omega) hcont
            (fun k hk1 hk2 hkj => hdisj k (by omega) (by omega) hkj)
          refine ⟨v, gv, ?_, hf, hv⟩
          rw [evalGroups_append, hnone, Option.none_or]
          exact hev

/-- The payload `convert_subtable_4_to_12` builds parses back (through
`parseGroups12`) to exactly the group list the converter computed. -/
theorem parseGroups12_convert_output {st st12 : Subtable} {groups : List Group}
    (hconv : convert_subtable_4_to_12 st = .ok st12)
    (hg : convert4Groups st.data = .ok groups)
    (hvals : ∀ g ∈ groups, g.1 < 2^32 ∧ g.2.1 < 2^32 ∧ g.2.2 < 2^32)
    (hlen : groups.length < 2^32) :
    st12.format = 12 ∧ st12.language = st.language ∧
      parseGroups12 st12.data = .ok groups := by
  unfold convert_subtable_4_to_12 at hconv
  rw [hg] at hconv
  simp only [exceptBind_ok, Except.ok.injEq] at hconv
  subst hconv
  refine ⟨rfl, rfl, ?_⟩
  show parseGroups12 _ = _
  set inner : Bytes := u16Bytes 12 ++ u16Bytes 0 ++ u32Bytes 0
    ++ u32Bytes st.language ++ u32Bytes 0 ++ groups.flatMap groupBytes with hinner
  have hhead : (u16Bytes 12 ++ u16Bytes 0 ++ u32Bytes 0 ++ u32Bytes st.language
      ++ u32Bytes 0).length = 16 := by
    simp
  have hinnerlen : inner.length = 16 + 12 * groups.length := by
    rw [hinner, List.length_append, hhead, length_flatMap_groupBytes]
  have hpad : pad4 inner = inner := pad4_eq_self (by omega)
  rw [hpad]
  set b1 : Bytes := patchU32 inner 4 inner.length with hb1
  have hb1len : b1.length = inner.length := by
    rw [hb1]
    unfold patchU32
    simp only [List.length_append, List.length_take, length_u32Bytes,
      List.length_drop]
    omega
  have hb1drop : b1.drop 16 = groups.flatMap groupBytes := by
    rw [hb1]
    unfold patchU32
    rw [List.append_assoc, drop_append_right _ (by
      simp only [List.length_take]
      omega)]
    have h16 : (16:Nat) - (inner.take 4).length = 12 := by
      simp only [List.length_take]
      omega
    rw [h16, drop_append_right _ (by simp)]
    rw [show (12:Nat) - (u32Bytes inner.length).length = 8 from by simp]
    rw [List.drop_drop]
    rw [show (8 + 8 : Nat) = 16 from rfl]
    rw [hinner, drop_append_right _ (by rw [hhead])]
    rw [hhead]
    simp
  set out : Bytes := patchU32 b1 12 groups.length with hout
  have houtsplit : out = b1.take 12 ++ (u32Bytes groups.length ++ b1.drop 16) := by
    rw [hout]
    unfold patchU32
    rw [List.append_assoc]
  have htake12 : (b1.take 12).length = 12 := by
    simp only [List.length_take]
    omega
  have hcnt : readU32 out 12 = .ok groups.length := by
    rw [houtsplit, readU32_append_right _ (by omega)]
    rw [show (12:Nat) - (b1.take 12).length = 0 from by omega]
    rw [readU32_u32Bytes, Nat.mod_eq_of_lt hlen]
  have hdrop : out.drop 16 = groups.flatMap groupBytes := by
    rw [houtsplit, drop_append_right _ (by omega)]
    rw [show (16:Nat) - (b1.take 12).length = 4 from by omega]
    rw [drop_append_right _ (by simp)]
    rw [show (4:Nat) - (u32Bytes groups.length).length = 0 from by simp]
    rw [List.drop_zero, hb1drop]
  have houtlen : 16 ≤ out.length := by
    rw [houtsplit]
    simp only [List.length_append, htake12, length_u32Bytes, List.length_drop]
    omega
  unfold parseGroups12
  rw [hcnt]
  simp only [exceptBind_ok]
  unfold sliceFrom
  rw [if_pos houtlen]
  simp only [exceptBind_ok]
  rw [hdrop]
  have := readGroups_roundtrip groups [] hvals
  simpa using this

/-- Conversion preserves semantics up to 16-bit truncation: a codepoint the
format-4 subtable maps to glyph `g` evaluates, in the groups parsed back
from the converter's output, to a value congruent to `g` modulo `2^16`. -/
theorem convert4_semantics_core {st4 st12 : Subtable} {c g : Nat}
    (hB : BytesOk st4.data)
    (hwf : Format4WellFormed st4.data)
    (hconv : convert_subtable_4_to_12 st4 = .ok st12)
    (heval : format4GlyphAt st4.data c = .ok (some g)) :
    ∃ gs, parseGroups12 st12.data = .ok gs ∧
      ∃ v, evalGroups gs c = some v ∧ v % 2^16 = g := by
  cases hg : convert4Groups st4.data with
  | error err =>
      have hcv := hconv
      unfold convert_subtable_4_to_12 at hcv
      rw [hg] at hcv
      exact absurd hcv (by simp)
  | ok groups =>
  have hg' := hg
  unfold convert4Groups at hg'
  cases ha : convert4Arrays st4.data with
  | error err => rw [ha] at hg'; exact absurd hg' (by simp)
  | ok arrs =>
  obtain ⟨scx2, ec, sc, idl, iro⟩ := arrs
  rw [ha] at hg'
  simp only [exceptBind_ok] at hg'
  obtain ⟨h6, hec, hsc, hidl, hiro, hdlen⟩ := convert4Arrays_ok ha
  subst hec
  subst hsc
  subst hidl
  subst hiro
  have hscx2lt : scx2 < 2^16 := readU16_lt hB h6
  have heval' := heval
  unfold format4GlyphAt at heval'
  rw [h6] at heval'
  simp only [exceptBind_ok] at heval'
  cases hbounds : readSegBounds st4.data scx2 0 (scx2 / 2) with
  | error err => rw [hbounds] at heval'; exact absurd heval' (by simp)
  | ok bounds =>
  rw [hbounds] at heval'
  simp only [exceptBind_ok] at heval'
  cases hpos : position (fun p => decide (p.1 ≤ c) && decide (c ≤ p.2)) bounds with
  | none =>
      rw [hpos] at heval'
      simp only [] at heval'
      simp [exceptPure] at heval'
  | some j =>
  rw [hpos] at heval'
  simp only [] at heval'
  cases hfe : format4SegEval st4.data scx2 j c with
  | error err => rw [hfe] at heval'; exact absurd heval' (by simp)
  | ok gref =>
  rw [hfe] at heval'
  simp only [exceptBind_ok, exceptPure, Except.ok.injEq, Option.some.injEq] at heval'
  subst heval'
  obtain ⟨hblen, hbidx⟩ := readSegBounds_spec st4.data scx2 (scx2 / 2) 0 bounds hbounds
  obtain ⟨bounds2, hb2, hwfb, hsorted⟩ := hwf
  have hbeq : bounds = bounds2 := by
    unfold format4SegBounds at hb2
    rw [h6] at hb2
    simp only [exceptBind_ok] at hb2
    rw [hbounds] at hb2
    injection hb2
  subst hbeq
  have hpw := pair_wf_sorted_pairwise hwfb hsorted
  have hpwg := List.pairwise_iff_getElem.mp hpw
  obtain ⟨pj, hpj, hpj2⟩ := position_eq_some hpos
  obtain ⟨sj, ej⟩ := pj
  have hpj2' : sj ≤ c ∧ c ≤ ej := by simpa using hpj2
  have hjlt : j < bounds.length := (List.getElem?_eq_some_iff.mp hpj).1
  have hjfuel : j < scx2 / 2 := by omega
  obtain ⟨sj', ej', hsj', hej', hbj'⟩ := hbidx j hjfuel
  rw [hpj] at hbj'
  simp only [Option.some.injEq, Prod.mk.injEq] at hbj'
  obtain ⟨rfl, rfl⟩ := hbj'
  rw [Nat.zero_add] at hsj' hej'
  have hcontj : SegContains st4.data scx2 j c :=
    ⟨sj, ej, hsj', hej', hpj2'.1, hpj2'.2⟩
  have hjelem : bounds[j] = (sj, ej) := (List.getElem?_eq_some_iff.mp hpj).2
  have hdisj : ∀ k, 0 ≤ k → k < 0 + scx2 / 2 → k ≠ j →
      ¬ SegContains st4.data scx2 k c := by
    intro k _ hk2 hkj hcontk
    obtain ⟨sk', ek', hsk', hek', hskc, hcek⟩ := hcontk
    obtain ⟨sk, ek, hsk, hek, hbk⟩ := hbidx k (by omega)
    rw [Nat.zero_add] at hsk hek
    have hseq : sk = sk' := by
      injection hsk.symm.trans hsk'
    have heeq : ek = ek' := by
      injection hek.symm.trans hek'
    subst hseq
    subst heeq
    have hklt : k < bounds.length := (List.getElem?_eq_some_iff.mp hbk).1
    have hkelem : bounds[k] = (sk, ek) := (List.getElem?_eq_some_iff.mp hbk).2
    rcases Nat.lt_or_ge k j with hlt | hge
    · have hR := hpwg k j hklt hjlt hlt
      rw [hkelem, hjelem] at hR
      simp only [] at hR
      omega
    · have hjk : j < k := by omega
      have hR := hpwg j k hjlt hklt hjk
      rw [hjelem, hkelem] at hR
      simp only [] at hR
      omega
  obtain ⟨hglen, hgmem, hgeval⟩ :=
    segLoop_spec st4.data hB scx2 hdlen (scx2 / 2) 0 groups (by omega) hg'
  obtain ⟨v, gv, hev, hfe', hv16⟩ := hgeval j c (by omega) (by omega) hcontj hdisj
  have hgv : gv = gref := by
    injection hfe'.symm.trans hfe
  subst hgv
  have hvals : ∀ x ∈ groups, x.1 < 2^32 ∧ x.2.1 < 2^32 ∧ x.2.2 < 2^32 := by
    intro x hx
    obtain ⟨j', s', e', -, -, -, -, -, -, h7, h8, h9⟩ := hgmem x hx
    exact ⟨by omega, by omega, by omega⟩
  have hglen32 : groups.length < 2^32 := by
    omega
  obtain ⟨hf12, hlang, hparse⟩ := parseGroups12_convert_output hconv hg hvals hglen32
  exact ⟨groups, hparse, v, hev, hv16⟩

/-! ### The claims -/

/-- Claim C1 (code bug): the parse → write → reparse round trip does not
preserve the multiset of
`(platform_id, encoding_id, format, language, byte length)` record tuples.
`Table::write` emits `subtables.len()` as the directory's `numTables` count
while writing one directory entry per encoding record, so on a table whose
parse deduplicated two records onto one subtable the reparse reads fewer
records than were written: on `bufDedup` the original parse has two record
tuples and the round trip only one. -/
theorem roundtrip_drops_record :
    origTuples bufDedup = .ok [(0, 3, 0, 0, 6), (3, 1, 0, 0, 6)] ∧
    roundTripTuples bufDedup = .ok [(0, 3, 0, 0, 6)] ∧
    ¬ ([(0, 3, 0, 0, 6)] : List (Nat × Nat × Nat × Nat × Nat)).Perm
        [(0, 3, 0, 0, 6), (3, 1, 0, 0, 6)] := by
  have h1 : cmapRead bufDedup = .ok ⟨0, [⟨0, 3, 0⟩, ⟨3, 1, 0⟩],
      [⟨0, 0, some (20, 6), [0, 0, 0, 6, 0, 0]⟩]⟩ := rfl
  have hsr : sortedRecords ⟨0, [⟨0, 3, 0⟩, ⟨3, 1, 0⟩],
      [⟨0, 0, some (20, 6), [0, 0, 0, 6, 0, 0]⟩]⟩ = [⟨0, 3, 0⟩, ⟨3, 1, 0⟩] :=
    List.mergeSort_of_sorted
      (List.Pairwise.cons
        (fun b hb => by rcases List.mem_singleton.mp hb with rfl; rfl)
        (List.pairwise_singleton _ _))
  have hw : cmapWrite ⟨0, [⟨0, 3, 0⟩, ⟨3, 1, 0⟩],
      [⟨0, 0, some (20, 6), [0, 0, 0, 6, 0, 0]⟩]⟩
      = [0, 0, 0, 1,
         0, 0, 0, 3, 0, 0, 0, 20,
         0, 3, 0, 1, 0, 0, 0, 20,
         0, 0, 0, 6, 0, 0] := by
    unfold cmapWrite
    rw [hsr]
    rfl
  refine ⟨rfl, ?_, by decide⟩
  unfold roundTripTuples
  rw [h1]
  simp only [exceptBind_ok]
  rw [hw]
  rfl

/-- Claim C2 (confirmed): on a format-12 payload whose parsed group list is
well-formed, sorted and non-overlapping, remapping with glyph count
`1 ≤ N ≤ 65535` succeeds, and the rewritten payload's groups evaluate to
glyph `g` at codepoint `0xF0000 + g` for every `g < N`. -/
theorem pua_remap_identity (data : Bytes) (gs : List Group) (N : Nat)
    (hB : BytesOk data) (hlen : data.length < 2^32)
    (hparse : parseGroups12 data = .ok gs)
    (hwf : GroupsWF gs) (_hs : GroupsSorted gs)
    (hN1 : 1 ≤ N) (hN2 : N ≤ 65535) :
    ∃ out, mapGlyphToPua12 data N = .ok out ∧
      ∃ gs2, parseGroups12 out = .ok gs2 ∧
        ∀ g, g < N → evalGroups gs2 (glyphStartCode + g) = some g := by
  obtain ⟨out, hout, hp2⟩ := mapGlyphToPua12_roundtrip N hB hlen hN2 hparse
  exact ⟨out, hout, spliceGroups gs N, hp2,
    fun g hg => spliceGroups_eval_window gs N g hwf hN1 hN2 hg⟩

/-- Claim C2, witnessed on the empty format-12 payload with `N = 1`. -/
theorem pua_remap_identity_witness :
    ∃ out, mapGlyphToPua12 data12Empty 1 = .ok out ∧
      ∃ gs2, parseGroups12 out = .ok gs2 ∧
        ∀ g, g < 1 → evalGroups gs2 (glyphStartCode + g) = some g :=
  pua_remap_identity data12Empty [] 1 (by unfold BytesOk; decide) (by decide)
    rfl (by unfold GroupsWF; decide) (by unfold GroupsSorted; decide)
    (by decide) (by decide)

/-- Claim C3 (corrected): converting a well-formed format-4 subtable
preserves the mapping only modulo `2^16` — at every codepoint the format-4
semantics covers, the parsed-back format-12 groups evaluate to a value
congruent to the format-4 glyph id modulo `2^16` (a constant-delta segment
whose 16-bit arithmetic wraps mid-segment makes the two differ as exact
`u32` values, see the counterexample). -/
theorem convert_4_to_12_semantics (st4 st12 : Subtable) (c g : Nat)
    (hB : BytesOk st4.data) (hwf : Format4WellFormed st4.data)
    (hconv : convert_subtable_4_to_12 st4 = .ok st12)
    (heval : format4GlyphAt st4.data c = .ok (some g)) :
    ∃ gs, parseGroups12 st12.data = .ok gs ∧
      ∃ v, evalGroups gs c = some v ∧ v % 2^16 = g :=
  convert4_semantics_core hB hwf hconv heval

/-- Claim C3, witnessed on the one-segment identity subtable at
codepoint `0x41`. -/
theorem convert_4_to_12_semantics_witness :
    ∃ gs, parseGroups12 ((⟨12, 0, none,
        [0, 12, 0, 0, 0, 0, 0, 28, 0, 0, 0, 0, 0, 0, 0, 1,
         0, 0, 0, 65, 0, 0, 0, 90, 0, 0, 0, 65]⟩ : Subtable)).data = .ok gs ∧
      ∃ v, evalGroups gs 65 = some v ∧ v % 2^16 = 65 :=
  convert_4_to_12_semantics stPlain4
    ⟨12, 0, none, [0, 12, 0, 0, 0, 0, 0, 28, 0, 0, 0, 0, 0, 0, 0, 1,
       0, 0, 0, 65, 0, 0, 0, 90, 0, 0, 0, 65]⟩ 65 65
    (by unfold BytesOk; decide)
    ⟨[(65, 90)], rfl, by decide, by simp⟩
    rfl rfl

/-- Claim C3, the wrap counterexample to exact equality: on `stWrap4`
(delta segment `[0x10, 0x20]` with `id_delta = 0xFFE7`) the format-4
semantics maps codepoint `0x19` to glyph `0`, but the converted groups
evaluate to `0x10000` there — the emitted group's `u32` arithmetic does not
re-truncate to 16 bits. -/
theorem convert_wrap_counterexample :
    BytesOk stWrap4.data ∧ Format4WellFormed stWrap4.data ∧
    ∃ st12, convert_subtable_4_to_12 stWrap4 = .ok st12 ∧
      format4GlyphAt stWrap4.data 0x19 = .ok (some 0) ∧
      ∃ gs, parseGroups12 st12.data = .ok gs ∧
        evalGroups gs 0x19 = some 0x10000 ∧ (0x10000 : Nat) ≠ 0 := by
  have hconv : convert_subtable_4_to_12 stWrap4
      = .ok ⟨12, 0, none, [0, 12, 0, 0, 0, 0, 0, 40, 0, 0, 0, 0, 0, 0, 0, 2,
        0, 0, 0, 16, 0, 0, 0, 32, 0, 0, 255, 247, 0, 0, 255, 255,
        0, 0, 255, 255, 0, 0, 0, 0]⟩ := rfl
  have hfmt : format4GlyphAt stWrap4.data 0x19 = .ok (some 0) := rfl
  have hparse : parseGroups12 ((⟨12, 0, none,
      [0, 12, 0, 0, 0, 0, 0, 40, 0, 0, 0, 0, 0, 0, 0, 2,
       0, 0, 0, 16, 0, 0, 0, 32, 0, 0, 255, 247, 0, 0, 255, 255,
       0, 0, 255, 255, 0, 0, 0, 0]⟩ : Subtable)).data
      = .ok [(16, 32, 65527), (65535, 65535, 0)] := rfl
  have hev : evalGroups [(16, 32, 65527), (65535, 65535, 0)] 0x19
      = some 0x10000 := rfl
  exact ⟨by unfold BytesOk; decide,
    ⟨[(16, 32), (65535, 65535)], rfl, by decide, List.chain'_pair.mpr (by decide)⟩,
    _, hconv, hfmt, _, hparse, hev, by decide⟩

/-- Claim C4 (confirmed): the remapper leaves every mapping outside the
window `[0xF0000, 0xF0000 + N - 1]` unchanged — the rewritten groups
evaluate as the originals at every codepoint outside the window — and the
concrete overlapping group `(0xEFFF0, 0xF0010, 7)` with `N = 5` is trimmed
into the three groups the specification names. -/
theorem pua_remap_frame :
    (∀ (data : Bytes) (gs : List Group) (N c : Nat),
      BytesOk data → data.length < 2^32 → parseGroups12 data = .ok gs →
      GroupsWF gs → GroupsSorted gs → 1 ≤ N → N ≤ 65535 →
      (c < glyphStartCode ∨ glyphEndCode N < c) →
      ∃ out, mapGlyphToPua12 data N = .ok out ∧
        ∃ gs2, parseGroups12 out = .ok gs2 ∧
          evalGroups gs2 c = evalGroups gs c) ∧
    spliceGroups [(0xEFFF0, 0xF0010, 7)] 5
      = [(0xEFFF0, 0xEFFFF, 7), (0xF0000, 0xF0004, 0),
         (0xF0005, 0xF0010, 7 + (0xF0005 - 0xEFFF0))] := by
  constructor
  · intro data gs N c hB hlen hparse hwf hs hN1 hN2 hc
    obtain ⟨out, hout, hp2⟩ := mapGlyphToPua12_roundtrip N hB hlen hN2 hparse
    obtain ⟨n, -, -, hrg⟩ := parseGroups12_ok_elim hparse
    have hvals := readGroups_values (BytesOk_drop 16 hB) hrg
    exact ⟨out, hout, spliceGroups gs N, hp2,
      spliceGroups_eval_frame gs N c hwf hs hvals hN1 hc⟩
  · decide

/-- Claim C5 (corrected): after `map_glyphs` chooses format-12 subtable
`k`, a `(0, 4)` record referencing `k` is appended exactly when no record
with platform 0 and encoding 4 exists at all — the code only tests for the
existence of some `(0, 4)` record, not whether one references the chosen
subtable (see the counterexample). -/
theorem map_glyphs_record_append (t : Table) (N : Nat) (t2 : Table) (k : Nat)
    (hk : position (fun st => st.format == 12) t.subtables = some k)
    (h : mapGlyphsTableStep t N = .ok t2) :
    t2.encoding_records =
      if t.encoding_records.any (fun r => r.platform_id == 0 && r.encoding_id == 4)
      then t.encoding_records
      else t.encoding_records ++ [⟨0, 4, k⟩] :=
  mapGlyphsTableStep_records t N t2 k hk h

/-- Claim C5, witnessed on a table with no encoding records: the `(0, 4)`
record referencing the format-12 subtable is appended. -/
theorem map_glyphs_record_append_witness :
    ((⟨0, [⟨0, 4, 0⟩], [⟨12, 0, none,
        [0, 12, 0, 0, 0, 0, 0, 28, 0, 0, 0, 0, 0, 0, 0, 1,
         0, 15, 0, 0, 0, 15, 0, 0, 0, 0, 0, 0]⟩]⟩ : Table)).encoding_records =
      if ((⟨0, [], [⟨12, 0, none, data12Empty⟩]⟩ : Table)).encoding_records.any
          (fun r => r.platform_id == 0 && r.encoding_id == 4)
      then ((⟨0, [], [⟨12, 0, none, data12Empty⟩]⟩ : Table)).encoding_records
      else ((⟨0, [], [⟨12, 0, none, data12Empty⟩]⟩ : Table)).encoding_records
        ++ [⟨0, 4, 0⟩] :=
  map_glyphs_record_append ⟨0, [], [⟨12, 0, none, data12Empty⟩]⟩ 1
    ⟨0, [⟨0, 4, 0⟩], [⟨12, 0, none,
       [0, 12, 0, 0, 0, 0, 0, 28, 0, 0, 0, 0, 0, 0, 0, 1,
        0, 15, 0, 0, 0, 15, 0, 0, 0, 0, 0, 0]⟩]⟩ 0 rfl rfl

/-- Claim C5, the counterexample to the claimed behaviour: in
`tblUnicodeElsewhere` a `(0, 4)` record exists but references subtable 0
while the chosen format-12 subtable is at index 1; no record referencing
subtable 1 exists, yet `map_glyphs` appends nothing. -/
theorem map_glyphs_no_append_counterexample :
    position (fun st => st.format == 12) tblUnicodeElsewhere.subtables = some 1 ∧
    (∃ r ∈ tblUnicodeElsewhere.encoding_records,
      r.platform_id = 0 ∧ r.encoding_id = 4 ∧ r.subtable_idx ≠ 1) ∧
    (∀ r ∈ tblUnicodeElsewhere.encoding_records,
      ¬(r.platform_id = 0 ∧ r.encoding_id = 4 ∧ r.subtable_idx = 1)) ∧
    ∃ t2, mapGlyphsTableStep tblUnicodeElsewhere 1 = .ok t2 ∧
      t2.encoding_records = tblUnicodeElsewhere.encoding_records :=
  ⟨rfl, by decide, by decide,
   ⟨0, [⟨0, 4, 0⟩], [⟨4, 0, none, []⟩, ⟨12, 0, none,
      [0, 12, 0, 0, 0, 0, 0, 28, 0, 0, 0, 0, 0, 0, 0, 1,
       0, 15, 0, 0, 0, 15, 0, 0, 0, 0, 0, 0]⟩]⟩,
   rfl, rfl⟩

/-- Claim C6 (code bug): a directory entry whose subtable byte range leaves
the buffer makes `Table::read` abort through Rust's slice indexing (a
panic, modelled `PErr.panic`) instead of returning the bounds error, and so
do the parallel-array slices of `convert_subtable_4_to_12`. -/
theorem bounds_panic :
    cmapRead bufRangeOut = .error .panic ∧
    convert_subtable_4_to_12 stArraysOut = .error .panic :=
  ⟨rfl, rfl⟩

/-- Claim C7 (confirmed): on a well-formed, sorted, non-overlapping group
list, the group list the remapper writes back is again well-formed, sorted
and non-overlapping. -/
theorem pua_remap_invariant (data : Bytes) (gs : List Group) (N : Nat)
    (hB : BytesOk data) (hlen : data.length < 2^32)
    (hparse : parseGroups12 data = .ok gs)
    (hwf : GroupsWF gs) (hs : GroupsSorted gs)
    (hN1 : 1 ≤ N) (hN2 : N ≤ 65535) :
    ∃ out, mapGlyphToPua12 data N = .ok out ∧
      ∃ gs2, parseGroups12 out = .ok gs2 ∧ GroupsWF gs2 ∧ GroupsSorted gs2 := by
  obtain ⟨out, hout, hp2⟩ := mapGlyphToPua12_roundtrip N hB hlen hN2 hparse
  obtain ⟨hw2, hs2⟩ := spliceGroups_invariant gs N hwf hs hN1
  exact ⟨out, hout, spliceGroups gs N, hp2, hw2, hs2⟩

/-- Claim C7, witnessed on the empty format-12 payload with `N = 1`. -/
theorem pua_remap_invariant_witness :
    ∃ out, mapGlyphToPua12 data12Empty 1 = .ok out ∧
      ∃ gs2, parseGroups12 out = .ok gs2 ∧ GroupsWF gs2 ∧ GroupsSorted gs2 :=
  pua_remap_invariant data12Empty [] 1 (by unfold BytesOk; decide) (by decide)
    rfl (by unfold GroupsWF; decide) (by unfold GroupsSorted; decide)
    (by decide) (by decide)

/-- Claim C8 (confirmed): in a successfully parsed table, two encoding
records share their `subtable_idx` exactly when their directory entries
resolve to the same `(offset, length)` byte range. -/
theorem read_dedup (data : Bytes) (t : Table) (h : cmapRead data = .ok t)
    (i j : Nat) (hi : i < t.encoding_records.length)
    (hj : j < t.encoding_records.length) :
    ((t.encoding_records.getD i default).subtable_idx
        = (t.encoding_records.getD j default).subtable_idx
      ↔ entryOffLen data i = entryOffLen data j) :=
  cmapRead_dedup_core data t h i j hi hj

/-- Claim C8, witnessed on `bufDedup`, whose two entries resolve to the
shared range `(20, 6)`. -/
theorem read_dedup_witness :
    (((⟨0, [⟨0, 3, 0⟩, ⟨3, 1, 0⟩], [⟨0, 0, some (20, 6),
        [0, 0, 0, 6, 0, 0]⟩]⟩ : Table)).encoding_records.getD 0 default).subtable_idx
      = (((⟨0, [⟨0, 3, 0⟩, ⟨3, 1, 0⟩], [⟨0, 0, some (20, 6),
        [0, 0, 0, 6, 0, 0]⟩]⟩ : Table)).encoding_records.getD 1 default).subtable_idx
      ↔ entryOffLen bufDedup 0 = entryOffLen bufDedup 1 :=
  read_dedup bufDedup
    ⟨0, [⟨0, 3, 0⟩, ⟨3, 1, 0⟩], [⟨0, 0, some (20, 6), [0, 0, 0, 6, 0, 0]⟩]⟩
    rfl 0 1 (by decide) (by decide)

/-- Claim C9 (confirmed): decoding the directory `Table::write` produced
yields exactly the records in the emitted order, and that order is
non-decreasing in the key `(platform_id, encoding_id, language of the
referenced subtable)`. -/
theorem write_directory_sorted (t : Table)
    (hrange : ∀ r ∈ t.encoding_records,
      r.platform_id < 2^16 ∧ r.encoding_id < 2^16) :
    readDirEntries (cmapWrite t) t.encoding_records.length 4
      = .ok ((sortedRecords t).map fun r => (r.platform_id, r.encoding_id,
          (subtableOffsets t).getD r.subtable_idx 0 % 2^32)) ∧
    (sortedRecords t).Pairwise
      (fun a b => keyLe (recKey t a) (recKey t b) = true) :=
  ⟨cmapWrite_decode t hrange, sortedRecords_pairwise t⟩

/-- Claim C9, witnessed on a table stored out of order. -/
theorem write_directory_sorted_witness :
    readDirEntries (cmapWrite tblUnsorted) tblUnsorted.encoding_records.length 4
      = .ok ((sortedRecords tblUnsorted).map fun r => (r.platform_id,
          r.encoding_id, (subtableOffsets tblUnsorted).getD r.subtable_idx 0 % 2^32)) ∧
    (sortedRecords tblUnsorted).Pairwise
      (fun a b => keyLe (recKey tblUnsorted a) (recKey tblUnsorted b) = true) :=
  write_directory_sorted tblUnsorted (by decide)

/-- Claim C10 (confirmed): with `num_glyphs = 0` the remapper computes the
window end as `0xF0000 + 0 - 1 = 0xEFFFF` (`u32` arithmetic) and, when no
group meets the degenerate window, still inserts the inverted group
`(0xF0000, 0xEFFFF, 0)` whose start code exceeds its end code. -/
theorem pua_remap_degenerate (gs : List Group) (hwf : GroupsWF gs)
    (hno : ∀ x ∈ gs, x.2.1 < glyphStartCode ∨ glyphEndCode 0 < x.1) :
    glyphEndCode 0 = 0xEFFFF ∧ glyphEndCode 0 < glyphStartCode ∧
    spliceGroups gs 0 =
      gs.take (partitionPoint (fun x => decide (x.2.1 < glyphStartCode)) gs)
        ++ [(glyphStartCode, glyphEndCode 0, 0)]
        ++ gs.drop (partitionPoint (fun x => decide (x.2.1 < glyphStartCode)) gs) :=
  ⟨rfl, by decide, spliceGroups_degenerate gs hwf hno⟩

/-- Claim C10, witnessed on the empty group list. -/
theorem pua_remap_degenerate_witness :
    glyphEndCode 0 = 0xEFFFF ∧ glyphEndCode 0 < glyphStartCode ∧
    spliceGroups ([] : List Group) 0 =
      List.take (partitionPoint (fun (x : Group) =>
          decide (x.2.1 < glyphStartCode)) ([] : List Group)) ([] : List Group)
        ++ [(glyphStartCode, glyphEndCode 0, 0)]
        ++ List.drop (partitionPoint (fun (x : Group) =>
          decide (x.2.1 < glyphStartCode)) ([] : List Group)) ([] : List Group) :=
  pua_remap_degenerate [] (by unfold GroupsWF; decide) (by decide)

end Cmap

